import Mathlib

/-!
# MCPricer: the analytical European option model and the Monte Carlo engine

A shallow embedding of `src/MCPricer/EuropeanOption.cpp` / `EuropeanOption.hpp`; the
conventions for `src/MCPricer/MonteCarlo.cpp` / `MonteCarlo.hpp` are stated where its
definitions start.

* A C++ `double` is modelled as a real number (`ℝ`); rounding, infinities and NaN are
  outside the model.  The quiet-NaN default of the constructor's last argument is
  modelled by `Option ℝ` (`none` is the NaN default).
* `std::string` is `String`, `int` is `Int`.
* A member function whose body is `if (m_type == "Call") ... if (m_type == "Put") ...`
  and then flows off its end returns `Option ℝ`: `none` is the fall-through.
* `std::log`, `std::sqrt`, `std::exp` are `Real.log`, `Real.sqrt`, `Real.exp`; the
  results below are stated for positive spot, strike, maturity and volatility, where
  these agree with the mathematical functions the source calls.

Real arithmetic is not executable in Lean, hence the `noncomputable section`.
-/

open Real Filter Topology MeasureTheory

noncomputable section

/-- The private data members of `class EuropeanOption` (EuropeanOption.hpp, lines 20-35). -/
structure EuropeanOption where
  m_type : String
  m_T : ℝ
  m_K : ℝ
  m_S : ℝ
  m_r : ℝ
  m_sigma : ℝ
  m_b : ℝ
  m_id : Int

/-- `EuropeanOption::D1` (EuropeanOption.cpp, lines 14-17). -/
def EuropeanOption.D1 (o : EuropeanOption) : ℝ :=
  (Real.log (o.m_S / o.m_K) + (o.m_b + o.m_sigma * o.m_sigma / 2) * o.m_T)
    / (o.m_sigma * Real.sqrt o.m_T)

/-- `EuropeanOption::D2` (EuropeanOption.cpp, lines 20-23). -/
def EuropeanOption.D2 (o : EuropeanOption) (d1 : ℝ) : ℝ :=
  d1 - o.m_sigma * Real.sqrt o.m_T

/-- `EuropeanOption::N_prime` (EuropeanOption.cpp, lines 32-35): the standard normal density. -/
def EuropeanOption.N_prime (x : ℝ) : ℝ :=
  1 / Real.sqrt (2 * Real.pi) * Real.exp (-(x * x / 2))

/-- Modelled from the spec: `boost::math::cdf(boost::math::normal(), x)`, which
`EuropeanOption::N` (EuropeanOption.cpp, lines 26-29) returns, is a library function
whose code is not in the repository.  The spec says "N is the standard normal cumulative
distribution function; N′ is its density": the integral of the density over `(-∞, x]`. -/
def EuropeanOption.N (x : ℝ) : ℝ :=
  ∫ t in Set.Iic x, EuropeanOption.N_prime t

/-- The constructor `EuropeanOption::EuropeanOption` (EuropeanOption.cpp, lines 38-49), named
`ctor` because a Lean declaration cannot carry the name of its own structure:
`m_b(std::isnan(b) ? r : b)`, with `none` standing for the NaN argument. -/
def EuropeanOption.ctor (type : String) (T K S r sigma : ℝ) (id : Int)
    (b : Option ℝ) : EuropeanOption :=
  { m_type := type, m_T := T, m_K := K, m_S := S, m_r := r, m_sigma := sigma, m_id := id,
    m_b := match b with
      | none => r
      | some b0 => b0 }

/-- `EuropeanOption::Price` (EuropeanOption.cpp, lines 103-117). -/
def EuropeanOption.Price (o : EuropeanOption) : Option ℝ :=
  let d1 := o.D1
  let d2 := o.D2 d1
  if o.m_type = "Call" then
    some (o.m_S * Real.exp ((o.m_b - o.m_r) * o.m_T) * EuropeanOption.N d1
      - o.m_K * Real.exp (-o.m_r * o.m_T) * EuropeanOption.N d2)
  else if o.m_type = "Put" then
    some (o.m_K * Real.exp (-o.m_r * o.m_T) * (1 - EuropeanOption.N d2)
      - o.m_S * Real.exp ((o.m_b - o.m_r) * o.m_T) * (1 - EuropeanOption.N d1))
  else none

/-- `EuropeanOption::PricePutCallParity` (EuropeanOption.cpp, lines 120-131). -/
def EuropeanOption.PricePutCallParity (o : EuropeanOption) : Option ℝ :=
  if o.m_type = "Call" then
    o.Price.map fun p => p + o.m_K * Real.exp (-o.m_r * o.m_T) - o.m_S
  else if o.m_type = "Put" then
    o.Price.map fun p => p + o.m_S - o.m_K * Real.exp (-o.m_r * o.m_T)
  else none

/-- `EuropeanOption::Delta` (EuropeanOption.cpp, lines 134-145). -/
def EuropeanOption.Delta (o : EuropeanOption) : Option ℝ :=
  if o.m_type = "Call" then
    some (Real.exp ((o.m_b - o.m_r) * o.m_T) * EuropeanOption.N o.D1)
  else if o.m_type = "Put" then
    some (-Real.exp ((o.m_b - o.m_r) * o.m_T) * (1 - EuropeanOption.N o.D1))
  else none

/-- `EuropeanOption::Gamma` (EuropeanOption.cpp, lines 148-151). -/
def EuropeanOption.Gamma (o : EuropeanOption) : ℝ :=
  EuropeanOption.N_prime o.D1 * Real.exp ((o.m_b - o.m_r) * o.m_T)
    / (o.m_S * o.m_sigma * Real.sqrt o.m_T)

/-- `EuropeanOption::Vega` (EuropeanOption.cpp, lines 154-157). -/
def EuropeanOption.Vega (o : EuropeanOption) : ℝ :=
  o.m_S * Real.sqrt o.m_T * Real.exp ((o.m_b - o.m_r) * o.m_T) * EuropeanOption.N_prime o.D1

/-- `EuropeanOption::Theta` (EuropeanOption.cpp, lines 160-174). -/
def EuropeanOption.Theta (o : EuropeanOption) : Option ℝ :=
  let d1 := o.D1
  let d2 := o.D2 d1
  if o.m_type = "Call" then
    some ((-(o.m_S) * o.m_sigma * Real.exp ((o.m_b - o.m_r) * o.m_T) * EuropeanOption.N_prime d1
        / (2 * Real.sqrt o.m_T))
      - ((o.m_b - o.m_r) * o.m_S * Real.exp ((o.m_b - o.m_r) * o.m_T) * EuropeanOption.N d1)
      - (o.m_r * o.m_K * Real.exp (-o.m_r * o.m_T) * EuropeanOption.N d2))
  else if o.m_type = "Put" then
    some ((-(o.m_S) * o.m_sigma * Real.exp ((o.m_b - o.m_r) * o.m_T) * EuropeanOption.N_prime d1
        / (2 * Real.sqrt o.m_T))
      - ((o.m_b - o.m_r) * o.m_S * Real.exp ((o.m_b - o.m_r) * o.m_T)
          * (1 - EuropeanOption.N d1))
      - (o.m_r * o.m_K * Real.exp (-o.m_r * o.m_T) * (1 - EuropeanOption.N d2)))
  else none

/-- `EuropeanOption::Rho` (EuropeanOption.cpp, lines 177-191). -/
def EuropeanOption.Rho (o : EuropeanOption) : Option ℝ :=
  let d1 := o.D1
  let d2 := o.D2 d1
  if o.m_type = "Call" then
    some (o.m_K * o.m_T * Real.exp (-o.m_r * o.m_T) * EuropeanOption.N d2)
  else if o.m_type = "Put" then
    some (-o.m_K * o.m_T * Real.exp (-o.m_r * o.m_T) * (1 - EuropeanOption.N d2))
  else none

/-- `EuropeanOption::NumericDelta` (EuropeanOption.cpp, lines 282-289). -/
def EuropeanOption.NumericDelta (o : EuropeanOption) (h : ℝ) : Option ℝ := do
  let up_price ← (EuropeanOption.ctor o.m_type o.m_T o.m_K (o.m_S + h) o.m_r
    o.m_sigma o.m_id (some o.m_b)).Price
  let down_price ← (EuropeanOption.ctor o.m_type o.m_T o.m_K (o.m_S - h) o.m_r
    o.m_sigma o.m_id (some o.m_b)).Price
  pure ((up_price - down_price) / (2 * h))

/-- `EuropeanOption::NumericGamma` (EuropeanOption.cpp, lines 292-299). -/
def EuropeanOption.NumericGamma (o : EuropeanOption) (h : ℝ) : Option ℝ := do
  let up_price ← (EuropeanOption.ctor o.m_type o.m_T o.m_K (o.m_S + h) o.m_r
    o.m_sigma o.m_id (some o.m_b)).Price
  let down_price ← (EuropeanOption.ctor o.m_type o.m_T o.m_K (o.m_S - h) o.m_r
    o.m_sigma o.m_id (some o.m_b)).Price
  let price ← o.Price
  pure ((up_price - 2 * price + down_price) / (h * h))

/-- The setter `EuropeanOption::type` (EuropeanOption.cpp, lines 319-323). -/
def EuropeanOption.type (o : EuropeanOption) (type : String) : EuropeanOption :=
  { o with m_type := type }

/-- The setter `EuropeanOption::T` (EuropeanOption.cpp, lines 326-330). -/
def EuropeanOption.T (o : EuropeanOption) (T : ℝ) : EuropeanOption :=
  { o with m_T := T }

/-- The setter `EuropeanOption::K` (EuropeanOption.cpp, lines 333-337). -/
def EuropeanOption.K (o : EuropeanOption) (K : ℝ) : EuropeanOption :=
  { o with m_K := K }

/-- The setter `EuropeanOption::S` (EuropeanOption.cpp, lines 340-344). -/
def EuropeanOption.S (o : EuropeanOption) (S : ℝ) : EuropeanOption :=
  { o with m_S := S }

/-- The setter `EuropeanOption::r` (EuropeanOption.cpp, lines 347-351). -/
def EuropeanOption.r (o : EuropeanOption) (r : ℝ) : EuropeanOption :=
  { o with m_r := r }

/-- The setter `EuropeanOption::sigma` (EuropeanOption.cpp, lines 354-358). -/
def EuropeanOption.sigma (o : EuropeanOption) (sigma : ℝ) : EuropeanOption :=
  { o with m_sigma := sigma }

/-- The setter `EuropeanOption::b` (EuropeanOption.cpp, lines 361-365). -/
def EuropeanOption.b (o : EuropeanOption) (b : ℝ) : EuropeanOption :=
  { o with m_b := b }

/-- `EuropeanOption::Vanna` (EuropeanOption.cpp, lines 194-199). -/
def EuropeanOption.Vanna (o : EuropeanOption) : ℝ :=
  let d1 := o.D1
  Real.exp ((o.m_b - o.m_r) * o.m_T) * EuropeanOption.N_prime d1 * (d1 / o.m_sigma - 1) * o.m_S
    * Real.sqrt o.m_T

/-- `EuropeanOption::Vomma` (EuropeanOption.cpp, lines 243-248). -/
def EuropeanOption.Vomma (o : EuropeanOption) : ℝ :=
  let d1 := o.D1
  o.Vega * d1 * (d1 - 1) / o.m_sigma

/-- `EuropeanOption::CheckPutCallParity` (EuropeanOption.cpp, lines 302-316).  The function
returns nothing and writes one line to `std::cout`; the result here is what it inserts into
the stream before `std::endl`: the leading text, the threshold, the trailing text.  `none`
is the fall-through of `PricePutCallParity`. -/
def EuropeanOption.CheckPutCallParity (o : EuropeanOption) (market_price threshold : ℝ) :
    Option (String × ℝ × String) := do
  let implied_price ← o.PricePutCallParity
  let rel_diff := |market_price - implied_price| / implied_price
  if rel_diff ≤ threshold then
    pure ("Put-Call Parity is satisfied within a ", threshold, " threshold")
  else
    pure ("Put-Call Parity is not satisfied within a ", threshold, " threshold")

/-- The accessor `EuropeanOption::type() const` (EuropeanOption.hpp, line 124).  C++
overloads the accessor and the setter on one name; the accessors are named `get_*` here. -/
def EuropeanOption.get_type (o : EuropeanOption) : String := o.m_type

/-- The accessor `EuropeanOption::T() const` (EuropeanOption.hpp, line 126). -/
def EuropeanOption.get_T (o : EuropeanOption) : ℝ := o.m_T

/-- The accessor `EuropeanOption::K() const` (EuropeanOption.hpp, line 128). -/
def EuropeanOption.get_K (o : EuropeanOption) : ℝ := o.m_K

/-- The accessor `EuropeanOption::S() const` (EuropeanOption.hpp, line 130). -/
def EuropeanOption.get_S (o : EuropeanOption) : ℝ := o.m_S

/-- The accessor `EuropeanOption::r() const` (EuropeanOption.hpp, line 132). -/
def EuropeanOption.get_r (o : EuropeanOption) : ℝ := o.m_r

/-- The accessor `EuropeanOption::sigma() const` (EuropeanOption.hpp, line 134). -/
def EuropeanOption.get_sigma (o : EuropeanOption) : ℝ := o.m_sigma

/-- The accessor `EuropeanOption::b() const` (EuropeanOption.hpp, line 136). -/
def EuropeanOption.get_b (o : EuropeanOption) : ℝ := o.m_b

/-- The accessor `EuropeanOption::id() const` (EuropeanOption.hpp, line 138). -/
def EuropeanOption.get_id (o : EuropeanOption) : Int := o.m_id

/-! ## The Monte Carlo engine

A shallow embedding of `src/MCPricer/MonteCarlo.cpp` / `MonteCarlo.hpp`.

* `long` is `Int`; a `for (long i = 1; i <= n; ++i)` loop runs `n.toNat` times.
* The values `dist(local_wiener_process)` returns are an explicit argument
  `dist : ℕ → ℕ → ℝ`: `dist i a` is the draw used by simulation `i` in subinterval `a`
  (both counted from `1`, like the loop variables).
* The OpenMP region is modelled by the sequential execution of its loop; the reduction
  `+` on the two sums is the sum over all simulations.
* `SN` is declared without a value (MonteCarlo.cpp, line 80): it is `Option ℝ` in the loop
  state, `none` until the inner loop assigns it, and reading it while `none` makes the
  result `none`.
* `std::pow` is `Real.rpow`, `std::max` is `max`.
-/

/-- The data members of `class MonteCarlo : public EuropeanOption` (MonteCarlo.hpp,
lines 13-21). -/
structure MonteCarlo extends EuropeanOption where
  m_subintervals : Int
  m_simulations : Int

/-- The constructor `MonteCarlo::MonteCarlo` (MonteCarlo.cpp, lines 25-29). -/
def MonteCarlo.ctor (option : EuropeanOption) (subintervals simulations : Int) : MonteCarlo :=
  { toEuropeanOption := option, m_subintervals := subintervals, m_simulations := simulations }

/-- `MonteCarlo::SD` (MonteCarlo.cpp, lines 12-15). -/
def MonteCarlo.SD (mc : MonteCarlo) (sum_payoff sum_square_payoff : ℝ) : ℝ :=
  Real.sqrt ((sum_square_payoff - (sum_payoff * sum_payoff / (mc.m_simulations : ℝ)))
      / ((mc.m_simulations - 1 : Int) : ℝ))
    * Real.exp (mc.toEuropeanOption.get_r * mc.toEuropeanOption.get_T)

/-- `MonteCarlo::SE` (MonteCarlo.cpp, lines 18-21). -/
def MonteCarlo.SE (mc : MonteCarlo) (sd : ℝ) : ℝ :=
  sd / Real.sqrt (mc.m_simulations : ℝ)

/-- The lambda `pow_function` of `MonteCarlo::Price` (MonteCarlo.cpp, lines 83-89), with its
capture `beta` as first argument. -/
def MonteCarlo.pow_function (beta x : ℝ) : ℝ :=
  if beta = 1.0 then x
  else if beta = 0.5 then Real.sqrt x
  else if beta = 2.0 then x * x
  else x ^ beta

/-- The inner loop of `MonteCarlo::Price` (MonteCarlo.cpp, lines 103-110) after `a`
iterations, on the pair `(S0, SN)`; `dist a` is the draw of iteration `a`. -/
def MonteCarlo.subinterval_loop (drift_const diffusion_const : ℝ) (pow_function : ℝ → ℝ)
    (dist : ℕ → ℝ) : ℕ → ℝ × Option ℝ → ℝ × Option ℝ
  | 0, st => st
  | a + 1, st =>
    let S0 := (MonteCarlo.subinterval_loop drift_const diffusion_const pow_function dist a st).1
    let SN := S0 + drift_const * S0 + diffusion_const * pow_function S0 * dist (a + 1)
    (SN, some SN)

/-- The payoff at the end of a simulation (MonteCarlo.cpp, lines 113-116). -/
def MonteCarlo.payoff (type : String) (K SN : ℝ) : ℝ :=
  if type = "Call" then max (SN - K) 0 else max (K - SN) 0

/-- The simulation loop of `MonteCarlo::Price` (MonteCarlo.cpp, lines 96-123) after `i`
simulations, on the triple `(SN, sum_payoff, sum_square_payoff)`. -/
def MonteCarlo.simulation_loop (type : String) (K S : ℝ) (m_subintervals : Int)
    (drift_const diffusion_const : ℝ) (pow_function : ℝ → ℝ) (dist : ℕ → ℕ → ℝ)
    (error_analysis : Bool) : ℕ → Option (Option ℝ × ℝ × ℝ)
  | 0 => some (none, 0, 0)
  | i + 1 => do
    let st ← MonteCarlo.simulation_loop type K S m_subintervals drift_const diffusion_const
      pow_function dist error_analysis i
    let S0 := S
    let SN ← (MonteCarlo.subinterval_loop drift_const diffusion_const pow_function (dist (i + 1))
      m_subintervals.toNat (S0, st.1)).2
    let payoff := MonteCarlo.payoff type K SN
    pure (some SN, st.2.1 + payoff,
      if error_analysis then st.2.2 + payoff * payoff else st.2.2)

/-- The row of values `MonteCarlo::Price` prints when `error_analysis` is set
(MonteCarlo.cpp, lines 149-156), under the headings `Simulations`, `Subintervals`,
`BSM Price`, `MC Price`, `SD`, `SE` (lines 141-147). -/
structure MonteCarlo.Report where
  simulations : Int
  subintervals : Int
  bsm_price : Option ℝ
  mc_price : ℝ
  sd : ℝ
  se : ℝ

/-- The body of `MonteCarlo::Price` (MonteCarlo.cpp, lines 53-158) for a given diffusion
multiplier `pow_function`: the returned price and what is printed. -/
def MonteCarlo.Price_with (mc : MonteCarlo) (pow_function : ℝ → ℝ) (dist : ℕ → ℕ → ℝ)
    (error_analysis : Bool) : Option (ℝ × Option MonteCarlo.Report) := do
  let K := mc.toEuropeanOption.get_K
  let T := mc.toEuropeanOption.get_T
  let r := mc.toEuropeanOption.get_r
  let sigma := mc.toEuropeanOption.get_sigma
  let S := mc.toEuropeanOption.get_S
  let type := mc.toEuropeanOption.get_type
  let tn := T / (mc.m_subintervals : ℝ)
  let drift_const := r * tn
  let diffusion_const := sigma * Real.sqrt tn
  let st ← MonteCarlo.simulation_loop type K S mc.m_subintervals drift_const diffusion_const
    pow_function dist error_analysis mc.m_simulations.toNat
  let sum_payoff := st.2.1
  let sum_square_payoff := st.2.2
  let average_payoff := sum_payoff / (mc.m_simulations : ℝ)
  let price := average_payoff * Real.exp (-r * T)
  if error_analysis then
    let sd := mc.SD sum_payoff sum_square_payoff
    pure (price, some
      { simulations := mc.m_simulations, subintervals := mc.m_subintervals,
        bsm_price := mc.toEuropeanOption.Price, mc_price := price, sd := sd, se := mc.SE sd })
  else
    pure (price, none)

/-- `MonteCarlo::Price` (MonteCarlo.cpp, lines 53-158): the body with the special-cased
multiplier `pow_function` the source defines. -/
def MonteCarlo.Price (mc : MonteCarlo) (dist : ℕ → ℕ → ℝ) (beta : ℝ) (error_analysis : Bool) :
    Option (ℝ × Option MonteCarlo.Report) :=
  mc.Price_with (MonteCarlo.pow_function beta) dist error_analysis

/-- The simulation as the spec words it (§4.2, §8): the same computation with "the general
`x^beta` formula" as diffusion multiplier at every step, without special cases. -/
def MonteCarlo.Price_general_pow (mc : MonteCarlo) (dist : ℕ → ℕ → ℝ) (beta : ℝ)
    (error_analysis : Bool) : Option (ℝ × Option MonteCarlo.Report) :=
  mc.Price_with (fun x => x ^ beta) dist error_analysis

/-- The generator `wiener_process` of `MonteCarlo::Price` (MonteCarlo.cpp, line 69):
default-constructed.  `boost::random::mt19937` is a library type; its state type `G` and its
default-constructed state are parameters. -/
def MonteCarlo.wiener_process {G : Type} (default_state : G) : G :=
  default_state

/-- The thread-local generator `local_wiener_process(wiener_process)` (MonteCarlo.cpp,
line 95) of the worker `thread`: copy-constructed from `wiener_process`. -/
def MonteCarlo.local_wiener_process {G : Type} (default_state : G) (_thread : ℕ) : G :=
  MonteCarlo.wiener_process default_state

/-- The first `n` values a worker draws with `dist(local_wiener_process)` (MonteCarlo.cpp,
line 107), most recent first, and the generator state they leave.  The distribution object
`dist` is a library type: `draw` is its call operator, returning the value and the advanced
generator state. -/
def MonteCarlo.worker_draws {G : Type} (draw : G → ℝ × G) (default_state : G) (thread : ℕ) :
    ℕ → List ℝ × G
  | 0 => ([], MonteCarlo.local_wiener_process default_state thread)
  | n + 1 =>
    let st := MonteCarlo.worker_draws draw default_state thread n
    ((draw st.2).1 :: st.1, (draw st.2).2)

/-! ## The standard normal density and distribution function -/

theorem N_prime_eq (x : ℝ) :
    EuropeanOption.N_prime x = 1 / Real.sqrt (2 * Real.pi) * Real.exp (-(1 / 2) * x ^ 2) := by
  unfold EuropeanOption.N_prime
  congr 2
  ring

theorem N_prime_pos (x : ℝ) : 0 < EuropeanOption.N_prime x := by
  unfold EuropeanOption.N_prime
  have h : 0 < Real.sqrt (2 * Real.pi) := Real.sqrt_pos.mpr (by positivity)
  positivity

theorem N_prime_continuous : Continuous EuropeanOption.N_prime := by
  unfold EuropeanOption.N_prime
  fun_prop

theorem N_prime_integrable : Integrable EuropeanOption.N_prime := by
  have h := (integrable_exp_neg_mul_sq (by norm_num : (0 : ℝ) < 1 / 2)).const_mul
    (1 / Real.sqrt (2 * Real.pi))
  refine h.congr (Eventually.of_forall fun x => ?_)
  simp only [N_prime_eq]

theorem N_sub_N (a b : ℝ) :
    EuropeanOption.N b - EuropeanOption.N a = ∫ t in a..b, EuropeanOption.N_prime t := by
  unfold EuropeanOption.N
  exact intervalIntegral.integral_Iic_sub_Iic N_prime_integrable.integrableOn
    N_prime_integrable.integrableOn

/-- The distribution function is differentiable and its derivative is the density. -/
theorem N_hasDerivAt (x : ℝ) : HasDerivAt EuropeanOption.N (EuropeanOption.N_prime x) x := by
  have h1 : HasDerivAt (fun u => ∫ t in (0 : ℝ)..u, EuropeanOption.N_prime t)
      (EuropeanOption.N_prime x) x :=
    (N_prime_continuous.integral_hasStrictDerivAt 0 x).hasDerivAt
  have h2 : EuropeanOption.N = fun u =>
      (∫ t in (0 : ℝ)..u, EuropeanOption.N_prime t) + EuropeanOption.N 0 := by
    funext u
    rw [← N_sub_N]
    ring
  rw [h2]
  exact h1.add_const _

theorem N_zero : EuropeanOption.N 0 = 1 / 2 := by
  unfold EuropeanOption.N
  have hev : ∀ t : ℝ, EuropeanOption.N_prime t = EuropeanOption.N_prime (-t) := by
    intro t
    simp [EuropeanOption.N_prime]
  have h1 : ∫ t in Set.Iic (0 : ℝ), EuropeanOption.N_prime t
      = ∫ t in Set.Ioi (0 : ℝ), EuropeanOption.N_prime t := by
    have := integral_comp_neg_Iic (0 : ℝ) EuropeanOption.N_prime
    rw [neg_zero] at this
    rw [← this]
    exact setIntegral_congr_fun measurableSet_Iic fun t _ => hev t
  rw [h1]
  simp only [N_prime_eq]
  rw [integral_mul_left, integral_gaussian_Ioi]
  have h2 : Real.pi / (1 / 2) = 2 * Real.pi := by ring
  rw [h2]
  have h3 : 0 < Real.sqrt (2 * Real.pi) := Real.sqrt_pos.mpr (by positivity)
  field_simp

theorem N_strictMono : StrictMono EuropeanOption.N := by
  apply strictMono_of_deriv_pos
  intro x
  rw [(N_hasDerivAt x).deriv]
  exact N_prime_pos x

/-! ## The closed-form price on each branch -/

theorem Price_call (o : EuropeanOption) (h : o.m_type = "Call") :
    o.Price = some (o.m_S * Real.exp ((o.m_b - o.m_r) * o.m_T) * EuropeanOption.N o.D1
      - o.m_K * Real.exp (-o.m_r * o.m_T) * EuropeanOption.N (o.D2 o.D1)) := by
  simp only [EuropeanOption.Price, h, if_true]

theorem Price_put (o : EuropeanOption) (h : o.m_type = "Put") :
    o.Price = some (o.m_K * Real.exp (-o.m_r * o.m_T) * (1 - EuropeanOption.N (o.D2 o.D1))
      - o.m_S * Real.exp ((o.m_b - o.m_r) * o.m_T) * (1 - EuropeanOption.N o.D1)) := by
  have hne : ("Put" : String) ≠ "Call" := by decide
  simp only [EuropeanOption.Price, h, if_true, if_neg hne]

/-- The identity `S e^((b-r)T) N'(d1) = K e^(-rT) N'(d2)` behind every Greek. -/
theorem N_prime_D1_D2 (o : EuropeanOption) (hS : 0 < o.m_S) (hK : 0 < o.m_K) (hT : 0 < o.m_T)
    (hsig : 0 < o.m_sigma) :
    o.m_S * Real.exp ((o.m_b - o.m_r) * o.m_T) * EuropeanOption.N_prime o.D1
      = o.m_K * Real.exp (-o.m_r * o.m_T) * EuropeanOption.N_prime (o.D2 o.D1) := by
  have hsq : Real.sqrt o.m_T * Real.sqrt o.m_T = o.m_T := Real.mul_self_sqrt hT.le
  have hv : o.m_sigma * Real.sqrt o.m_T ≠ 0 := (mul_pos hsig (Real.sqrt_pos.mpr hT)).ne'
  have hd : o.D1 * (o.m_sigma * Real.sqrt o.m_T)
      = Real.log (o.m_S / o.m_K) + (o.m_b + o.m_sigma * o.m_sigma / 2) * o.m_T := by
    unfold EuropeanOption.D1
    exact div_mul_cancel₀ _ hv
  have he : -(o.D2 o.D1 * o.D2 o.D1 / 2)
      = -(o.D1 * o.D1 / 2) + Real.log (o.m_S / o.m_K) + o.m_b * o.m_T := by
    unfold EuropeanOption.D2
    linear_combination hd - (o.m_sigma * o.m_sigma / 2) * hsq
  have hA : Real.exp ((o.m_b - o.m_r) * o.m_T)
      = Real.exp (o.m_b * o.m_T) * Real.exp (-o.m_r * o.m_T) := by
    rw [← Real.exp_add]
    congr 1
    ring
  unfold EuropeanOption.N_prime
  rw [he, Real.exp_add, Real.exp_add, Real.exp_log (div_pos hS hK), hA]
  field_simp
  ring

/-! ## Put-call parity -/

/-- C1: put-call parity of the analytical price.  For `S > 0`, `K > 0`, `T > 0`, `sigma > 0`
and any `r`, `b`, the Call model and the Put model built from the same parameters both
return a price, and `Call - Put = S e^((b-r)T) - K e^(-rT)`. -/
theorem C1_put_call_parity (T K S r sigma b : ℝ) (id1 id2 : Int)
    (hS : 0 < S) (hK : 0 < K) (hT : 0 < T) (hsig : 0 < sigma) :
    ∃ c p : ℝ, (EuropeanOption.ctor "Call" T K S r sigma id1 (some b)).Price = some c
      ∧ (EuropeanOption.ctor "Put" T K S r sigma id2 (some b)).Price = some p
      ∧ c - p = S * Real.exp ((b - r) * T) - K * Real.exp (-r * T) := by
  have _h := And.intro (And.intro hS hK) (And.intro hT hsig)
  refine ⟨_, _, Price_call _ rfl, Price_put _ rfl, ?_⟩
  simp only [EuropeanOption.ctor, EuropeanOption.D1, EuropeanOption.D2]
  ring

/-- Witness for C1: the parity identity at `T = 1/4`, `K = 65`, `S = 60`, `r = 2/25`,
`sigma = 3/10`, `b = 0`. -/
theorem C1_put_call_parity_witness :
    (0 : ℝ) < 60 ∧ (0 : ℝ) < 65 ∧ (0 : ℝ) < 1 / 4 ∧ (0 : ℝ) < 3 / 10 ∧
    ∃ c p : ℝ,
      (EuropeanOption.ctor "Call" (1 / 4) 65 60 (2 / 25) (3 / 10) 1 (some 0)).Price = some c
      ∧ (EuropeanOption.ctor "Put" (1 / 4) 65 60 (2 / 25) (3 / 10) 2 (some 0)).Price = some p
      ∧ c - p = 60 * Real.exp ((0 - 2 / 25) * (1 / 4)) - 65 * Real.exp (-(2 / 25) * (1 / 4)) :=
  ⟨by norm_num, by norm_num, by norm_num, by norm_num,
    C1_put_call_parity (1 / 4) 65 60 (2 / 25) (3 / 10) 0 1 2
      (by norm_num) (by norm_num) (by norm_num) (by norm_num)⟩

theorem PricePutCallParity_put (o : EuropeanOption) (h : o.m_type = "Put") :
    o.PricePutCallParity
      = some (o.m_K * Real.exp (-o.m_r * o.m_T) * (1 - EuropeanOption.N (o.D2 o.D1))
        - o.m_S * Real.exp ((o.m_b - o.m_r) * o.m_T) * (1 - EuropeanOption.N o.D1)
        + o.m_S - o.m_K * Real.exp (-o.m_r * o.m_T)) := by
  have hne : ("Put" : String) ≠ "Call" := by decide
  simp only [EuropeanOption.PricePutCallParity, Price_put o h, h, if_true, if_neg hne,
    Option.map_some']

theorem PricePutCallParity_call (o : EuropeanOption) (h : o.m_type = "Call") :
    o.PricePutCallParity
      = some (o.m_S * Real.exp ((o.m_b - o.m_r) * o.m_T) * EuropeanOption.N o.D1
        - o.m_K * Real.exp (-o.m_r * o.m_T) * EuropeanOption.N (o.D2 o.D1)
        + o.m_K * Real.exp (-o.m_r * o.m_T) - o.m_S) := by
  simp only [EuropeanOption.PricePutCallParity, Price_call o h, h, if_true, Option.map_some']

/-- On either side, `PricePutCallParity` differs from the opposite-side `Price` by the
carry term `S (e^((b-r)T) - 1)` that its offset leaves out. -/
theorem PricePutCallParity_put_gap (T K S r sigma b : ℝ) (id1 id2 : Int) :
    ∃ q c : ℝ, (EuropeanOption.ctor "Put" T K S r sigma id1 (some b)).PricePutCallParity = some q
      ∧ (EuropeanOption.ctor "Call" T K S r sigma id2 (some b)).Price = some c
      ∧ c - q = S * (Real.exp ((b - r) * T) - 1) := by
  refine ⟨_, _, PricePutCallParity_put _ rfl, Price_call _ rfl, ?_⟩
  simp only [EuropeanOption.ctor, EuropeanOption.D1, EuropeanOption.D2]
  ring

theorem PricePutCallParity_call_gap (T K S r sigma b : ℝ) (id1 id2 : Int) :
    ∃ q p : ℝ, (EuropeanOption.ctor "Call" T K S r sigma id1 (some b)).PricePutCallParity = some q
      ∧ (EuropeanOption.ctor "Put" T K S r sigma id2 (some b)).Price = some p
      ∧ q - p = S * (Real.exp ((b - r) * T) - 1) := by
  refine ⟨_, _, PricePutCallParity_call _ rfl, Price_put _ rfl, ?_⟩
  simp only [EuropeanOption.ctor, EuropeanOption.D1, EuropeanOption.D2]
  ring

/-- C2 (the code at a failing input): for the Put model with `T = 1`, `K = 1`, `S = 1`,
`r = 0`, `sigma = 1` and cost of carry `b = 1`, `PricePutCallParity` returns a value that is
not the `Price` of the corresponding Call model: the Call price exceeds it by `e - 1`. -/
theorem C2_parity_price_misses_carry :
    ∃ q c : ℝ, (EuropeanOption.ctor "Put" 1 1 1 0 1 1 (some 1)).PricePutCallParity = some q
      ∧ (EuropeanOption.ctor "Call" 1 1 1 0 1 1 (some 1)).Price = some c
      ∧ c - q = Real.exp 1 - 1 ∧ q ≠ c := by
  obtain ⟨q, c, hq, hc, hgap⟩ := PricePutCallParity_put_gap 1 1 1 0 1 1 1 1
  have hgap' : c - q = Real.exp 1 - 1 := by
    rw [hgap]
    norm_num
  refine ⟨q, c, hq, hc, hgap', ?_⟩
  intro hqc
  have h1 : Real.exp 1 - 1 = 0 := by
    rw [← hgap', hqc]
    ring
  have h2 : (1 : ℝ) + 1 ≤ Real.exp 1 := Real.add_one_le_exp 1
  linarith

/-! ## Sensitivity to spot: delta and gamma -/

theorem sigma_sqrt_pos (o : EuropeanOption) (hT : 0 < o.m_T) (hsig : 0 < o.m_sigma) :
    0 < o.m_sigma * Real.sqrt o.m_T :=
  mul_pos hsig (Real.sqrt_pos.mpr hT)

/-- The derivative of `D1` with respect to spot, at any positive spot `x`. -/
theorem D1_hasDerivAt_S (o : EuropeanOption) (x : ℝ) (hx : 0 < x) (hK : 0 < o.m_K) :
    HasDerivAt (fun S' => (o.S S').D1) (1 / (x * (o.m_sigma * Real.sqrt o.m_T))) x := by
  have hlog : HasDerivAt (fun S' : ℝ => Real.log (S' / o.m_K)) (1 / x) x := by
    have h1 : HasDerivAt (fun S' : ℝ => S' / o.m_K) (1 / o.m_K) x := by
      simpa using (hasDerivAt_id x).div_const o.m_K
    have h2 := h1.log (div_pos hx hK).ne'
    convert h2 using 1
    field_simp
  have h3 := (hlog.add_const ((o.m_b + o.m_sigma * o.m_sigma / 2) * o.m_T)).div_const
    (o.m_sigma * Real.sqrt o.m_T)
  convert h3 using 1
  rw [div_div]

/-- The Call price as a function of spot has derivative `e^((b-r)T) N(d1)` at every positive
spot `x`. -/
theorem Price_call_hasDerivAt_S (o : EuropeanOption) (x : ℝ) (hx : 0 < x) (hK : 0 < o.m_K)
    (hT : 0 < o.m_T) (hsig : 0 < o.m_sigma) :
    HasDerivAt (fun S' => S' * Real.exp ((o.m_b - o.m_r) * o.m_T) * EuropeanOption.N (o.S S').D1
        - o.m_K * Real.exp (-o.m_r * o.m_T) * EuropeanOption.N ((o.S S').D2 (o.S S').D1))
      (Real.exp ((o.m_b - o.m_r) * o.m_T) * EuropeanOption.N (o.S x).D1) x := by
  have hd1 := D1_hasDerivAt_S o x hx hK
  have hd2 : HasDerivAt (fun S' => (o.S S').D2 (o.S S').D1)
      (1 / (x * (o.m_sigma * Real.sqrt o.m_T))) x :=
    hd1.sub_const (o.m_sigma * Real.sqrt o.m_T)
  have hN1 := (N_hasDerivAt (o.S x).D1).comp x hd1
  have hN2 := (N_hasDerivAt ((o.S x).D2 (o.S x).D1)).comp x hd2
  have hkey : x * Real.exp ((o.m_b - o.m_r) * o.m_T) * EuropeanOption.N_prime (o.S x).D1
      = o.m_K * Real.exp (-o.m_r * o.m_T) * EuropeanOption.N_prime ((o.S x).D2 (o.S x).D1) :=
    N_prime_D1_D2 (o.S x) hx hK hT hsig
  have h := (((hasDerivAt_id x).mul_const (Real.exp ((o.m_b - o.m_r) * o.m_T))).mul hN1).sub
    (hN2.const_mul (o.m_K * Real.exp (-o.m_r * o.m_T)))
  convert h using 1
  simp only [Function.comp_apply, id]
  linear_combination (-(1 / (x * (o.m_sigma * Real.sqrt o.m_T)))) * hkey

/-- The Put price as a function of spot has derivative `-e^((b-r)T) (1 - N(d1))` at every
positive spot `x`. -/
theorem Price_put_hasDerivAt_S (o : EuropeanOption) (x : ℝ) (hx : 0 < x) (hK : 0 < o.m_K)
    (hT : 0 < o.m_T) (hsig : 0 < o.m_sigma) :
    HasDerivAt (fun S' => o.m_K * Real.exp (-o.m_r * o.m_T)
          * (1 - EuropeanOption.N ((o.S S').D2 (o.S S').D1))
        - S' * Real.exp ((o.m_b - o.m_r) * o.m_T) * (1 - EuropeanOption.N (o.S S').D1))
      (-Real.exp ((o.m_b - o.m_r) * o.m_T) * (1 - EuropeanOption.N (o.S x).D1)) x := by
  have h := ((Price_call_hasDerivAt_S o x hx hK hT hsig).sub
    ((hasDerivAt_id x).mul_const (Real.exp ((o.m_b - o.m_r) * o.m_T)))).add_const
      (o.m_K * Real.exp (-o.m_r * o.m_T))
  convert h using 1
  · funext S'
    simp only [id]
    ring
  · ring

/-- C3: `Delta` is the partial derivative of `Price` with respect to spot.  For a Call or a
Put with `S > 0`, `K > 0`, `T > 0`, `sigma > 0`, `Price` returns a value `f S'` at every spot
`S'` (other fields fixed), `f` is differentiable at `S`, and its derivative there is the
value `Delta` returns. -/
theorem C3_delta_is_price_deriv_spot (o : EuropeanOption)
    (hty : o.m_type = "Call" ∨ o.m_type = "Put")
    (hS : 0 < o.m_S) (hK : 0 < o.m_K) (hT : 0 < o.m_T) (hsig : 0 < o.m_sigma) :
    ∃ (f : ℝ → ℝ) (d : ℝ), (∀ S', (o.S S').Price = some (f S')) ∧ o.Delta = some d
      ∧ HasDerivAt f d o.m_S := by
  rcases hty with hty | hty
  · refine ⟨_, _, fun S' => Price_call (o.S S') hty, ?_,
      Price_call_hasDerivAt_S o o.m_S hS hK hT hsig⟩
    simp only [EuropeanOption.Delta, hty, if_true]
    rfl
  · have hne : ("Put" : String) ≠ "Call" := by decide
    refine ⟨_, _, fun S' => Price_put (o.S S') hty, ?_,
      Price_put_hasDerivAt_S o o.m_S hS hK hT hsig⟩
    simp only [EuropeanOption.Delta, hty, if_true, if_neg hne]
    rfl

/-- Witness for C3: a Put with `T = 1/4`, `K = 65`, `S = 60`, `r = 2/25`, `sigma = 3/10` and
the cost of carry defaulted. -/
theorem C3_delta_is_price_deriv_spot_witness :
    (0 : ℝ) < 60 ∧ (0 : ℝ) < 65 ∧ (0 : ℝ) < 1 / 4 ∧ (0 : ℝ) < 3 / 10 ∧
    ∃ (f : ℝ → ℝ) (d : ℝ),
      (∀ S', ((EuropeanOption.ctor "Put" (1 / 4) 65 60 (2 / 25) (3 / 10) 1 none).S S').Price
        = some (f S'))
      ∧ (EuropeanOption.ctor "Put" (1 / 4) 65 60 (2 / 25) (3 / 10) 1 none).Delta = some d
      ∧ HasDerivAt f d 60 :=
  ⟨by norm_num, by norm_num, by norm_num, by norm_num,
    C3_delta_is_price_deriv_spot (EuropeanOption.ctor "Put" (1 / 4) 65 60 (2 / 25) (3 / 10) 1 none)
      (Or.inr rfl) (by norm_num [EuropeanOption.ctor]) (by norm_num [EuropeanOption.ctor])
      (by norm_num [EuropeanOption.ctor]) (by norm_num [EuropeanOption.ctor])⟩

theorem Delta_call (o : EuropeanOption) (h : o.m_type = "Call") :
    o.Delta = some (Real.exp ((o.m_b - o.m_r) * o.m_T) * EuropeanOption.N o.D1) := by
  simp only [EuropeanOption.Delta, h, if_true]

theorem Delta_put (o : EuropeanOption) (h : o.m_type = "Put") :
    o.Delta = some (-Real.exp ((o.m_b - o.m_r) * o.m_T) * (1 - EuropeanOption.N o.D1)) := by
  have hne : ("Put" : String) ≠ "Call" := by decide
  simp only [EuropeanOption.Delta, h, if_true, if_neg hne]

/-- The Call delta as a function of spot has derivative `Gamma` at every positive spot. -/
theorem Delta_call_hasDerivAt_S (o : EuropeanOption) (x : ℝ) (hx : 0 < x) (hK : 0 < o.m_K) :
    HasDerivAt (fun S' => Real.exp ((o.m_b - o.m_r) * o.m_T) * EuropeanOption.N (o.S S').D1)
      (o.S x).Gamma x := by
  have hd1 := D1_hasDerivAt_S o x hx hK
  have hN1 := (N_hasDerivAt (o.S x).D1).comp x hd1
  have h := hN1.const_mul (Real.exp ((o.m_b - o.m_r) * o.m_T))
  convert h using 1
  show EuropeanOption.N_prime (o.S x).D1 * Real.exp ((o.m_b - o.m_r) * o.m_T)
      / (x * o.m_sigma * Real.sqrt o.m_T) = _
  rw [mul_assoc x]
  ring

/-- The Put delta as a function of spot has derivative `Gamma` at every positive spot. -/
theorem Delta_put_hasDerivAt_S (o : EuropeanOption) (x : ℝ) (hx : 0 < x) (hK : 0 < o.m_K) :
    HasDerivAt (fun S' => -Real.exp ((o.m_b - o.m_r) * o.m_T)
        * (1 - EuropeanOption.N (o.S S').D1))
      (o.S x).Gamma x := by
  have h := (Delta_call_hasDerivAt_S o x hx hK).sub_const (Real.exp ((o.m_b - o.m_r) * o.m_T))
  convert h using 1
  funext S'
  ring

/-- C4: `Gamma` is the second partial derivative of `Price` with respect to spot.  For a
Call or a Put with `S > 0`, `K > 0`, `T > 0`, `sigma > 0`, `Delta` returns a value `g S'` at
every spot `S'` (other fields fixed), `g` has derivative `Gamma` at `S`, and
`Gamma = N'(d1) e^((b-r)T) / (S sigma sqrt T)`. -/
theorem C4_gamma_is_delta_deriv_spot (o : EuropeanOption)
    (hty : o.m_type = "Call" ∨ o.m_type = "Put")
    (hS : 0 < o.m_S) (hK : 0 < o.m_K) (hT : 0 < o.m_T) (hsig : 0 < o.m_sigma) :
    ∃ g : ℝ → ℝ, (∀ S', (o.S S').Delta = some (g S')) ∧ HasDerivAt g o.Gamma o.m_S
      ∧ o.Gamma = EuropeanOption.N_prime o.D1 * Real.exp ((o.m_b - o.m_r) * o.m_T)
          / (o.m_S * o.m_sigma * Real.sqrt o.m_T) := by
  have _h := And.intro hT hsig
  rcases hty with hty | hty
  · exact ⟨_, fun S' => Delta_call (o.S S') hty, Delta_call_hasDerivAt_S o o.m_S hS hK, rfl⟩
  · exact ⟨_, fun S' => Delta_put (o.S S') hty, Delta_put_hasDerivAt_S o o.m_S hS hK, rfl⟩

/-- Witness for C4: a Call with `T = 1/4`, `K = 65`, `S = 60`, `r = 2/25`, `sigma = 3/10` and
the cost of carry defaulted. -/
theorem C4_gamma_is_delta_deriv_spot_witness :
    (0 : ℝ) < 60 ∧ (0 : ℝ) < 65 ∧ (0 : ℝ) < 1 / 4 ∧ (0 : ℝ) < 3 / 10 ∧
    ∃ g : ℝ → ℝ,
      (∀ S', ((EuropeanOption.ctor "Call" (1 / 4) 65 60 (2 / 25) (3 / 10) 1 none).S S').Delta
        = some (g S'))
      ∧ HasDerivAt g (EuropeanOption.ctor "Call" (1 / 4) 65 60 (2 / 25) (3 / 10) 1 none).Gamma 60
      ∧ (EuropeanOption.ctor "Call" (1 / 4) 65 60 (2 / 25) (3 / 10) 1 none).Gamma
        = EuropeanOption.N_prime
            (EuropeanOption.ctor "Call" (1 / 4) 65 60 (2 / 25) (3 / 10) 1 none).D1
          * Real.exp ((2 / 25 - 2 / 25) * (1 / 4)) / (60 * (3 / 10) * Real.sqrt (1 / 4)) :=
  ⟨by norm_num, by norm_num, by norm_num, by norm_num,
    C4_gamma_is_delta_deriv_spot
      (EuropeanOption.ctor "Call" (1 / 4) 65 60 (2 / 25) (3 / 10) 1 none)
      (Or.inl rfl) (by norm_num [EuropeanOption.ctor]) (by norm_num [EuropeanOption.ctor])
      (by norm_num [EuropeanOption.ctor]) (by norm_num [EuropeanOption.ctor])⟩

/-! ## Sensitivity to volatility: vega -/

theorem D1_differentiableAt_sigma (o : EuropeanOption) (x : ℝ) (hx : 0 < x) (hT : 0 < o.m_T) :
    DifferentiableAt ℝ (fun s => (o.sigma s).D1) x := by
  have hv : x * Real.sqrt o.m_T ≠ 0 := (mul_pos hx (Real.sqrt_pos.mpr hT)).ne'
  show DifferentiableAt ℝ (fun s : ℝ =>
    (Real.log (o.m_S / o.m_K) + (o.m_b + s * s / 2) * o.m_T) / (s * Real.sqrt o.m_T)) x
  exact DifferentiableAt.div (by fun_prop) (by fun_prop) hv

/-- The Call price as a function of volatility has derivative `Vega` at every positive
volatility `x`. -/
theorem Price_call_hasDerivAt_sigma (o : EuropeanOption) (x : ℝ) (hx : 0 < x) (hS : 0 < o.m_S)
    (hK : 0 < o.m_K) (hT : 0 < o.m_T) :
    HasDerivAt (fun s => o.m_S * Real.exp ((o.m_b - o.m_r) * o.m_T)
          * EuropeanOption.N (o.sigma s).D1
        - o.m_K * Real.exp (-o.m_r * o.m_T) * EuropeanOption.N ((o.sigma s).D2 (o.sigma s).D1))
      (o.sigma x).Vega x := by
  have hd1 := (D1_differentiableAt_sigma o x hx hT).hasDerivAt
  have hd2 : HasDerivAt (fun s => (o.sigma s).D2 (o.sigma s).D1)
      (deriv (fun s => (o.sigma s).D1) x - 1 * Real.sqrt o.m_T) x :=
    hd1.sub ((hasDerivAt_id x).mul_const (Real.sqrt o.m_T))
  have hN1 := (N_hasDerivAt (o.sigma x).D1).comp x hd1
  have hN2 := (N_hasDerivAt ((o.sigma x).D2 (o.sigma x).D1)).comp x hd2
  have hkey : o.m_S * Real.exp ((o.m_b - o.m_r) * o.m_T) * EuropeanOption.N_prime (o.sigma x).D1
      = o.m_K * Real.exp (-o.m_r * o.m_T)
        * EuropeanOption.N_prime ((o.sigma x).D2 (o.sigma x).D1) :=
    N_prime_D1_D2 (o.sigma x) hS hK hT hx
  have h := (hN1.const_mul (o.m_S * Real.exp ((o.m_b - o.m_r) * o.m_T))).sub
    (hN2.const_mul (o.m_K * Real.exp (-o.m_r * o.m_T)))
  convert h using 1
  show o.m_S * Real.sqrt o.m_T * Real.exp ((o.m_b - o.m_r) * o.m_T)
      * EuropeanOption.N_prime (o.sigma x).D1 = _
  linear_combination
    (Real.sqrt o.m_T - deriv (fun s => (o.sigma s).D1) x) * hkey

/-- The Put price as a function of volatility has derivative `Vega` at every positive
volatility `x`. -/
theorem Price_put_hasDerivAt_sigma (o : EuropeanOption) (x : ℝ) (hx : 0 < x) (hS : 0 < o.m_S)
    (hK : 0 < o.m_K) (hT : 0 < o.m_T) :
    HasDerivAt (fun s => o.m_K * Real.exp (-o.m_r * o.m_T)
          * (1 - EuropeanOption.N ((o.sigma s).D2 (o.sigma s).D1))
        - o.m_S * Real.exp ((o.m_b - o.m_r) * o.m_T) * (1 - EuropeanOption.N (o.sigma s).D1))
      (o.sigma x).Vega x := by
  have h := (Price_call_hasDerivAt_sigma o x hx hS hK hT).add_const
    (o.m_K * Real.exp (-o.m_r * o.m_T) - o.m_S * Real.exp ((o.m_b - o.m_r) * o.m_T))
  convert h using 1
  funext s
  ring

/-- C5: `Vega` is the partial derivative of `Price` with respect to volatility.  For a Call
or a Put with `S > 0`, `K > 0`, `T > 0`, `sigma > 0`, `Price` returns a value `f s` at every
volatility `s` (other fields fixed) and `f` has derivative `Vega` at `sigma`. -/
theorem C5_vega_is_price_deriv_sigma (o : EuropeanOption)
    (hty : o.m_type = "Call" ∨ o.m_type = "Put")
    (hS : 0 < o.m_S) (hK : 0 < o.m_K) (hT : 0 < o.m_T) (hsig : 0 < o.m_sigma) :
    ∃ f : ℝ → ℝ, (∀ s, (o.sigma s).Price = some (f s)) ∧ HasDerivAt f o.Vega o.m_sigma := by
  rcases hty with hty | hty
  · exact ⟨_, fun s => Price_call (o.sigma s) hty,
      Price_call_hasDerivAt_sigma o o.m_sigma hsig hS hK hT⟩
  · exact ⟨_, fun s => Price_put (o.sigma s) hty,
      Price_put_hasDerivAt_sigma o o.m_sigma hsig hS hK hT⟩

/-- Witness for C5: the Put of `main` (MCPricer.cpp, line 45), `T = 1`, `K = 100`, `S = 100`,
`r = 0`, `sigma = 1/5`. -/
theorem C5_vega_is_price_deriv_sigma_witness :
    (0 : ℝ) < 100 ∧ (0 : ℝ) < 100 ∧ (0 : ℝ) < 1 ∧ (0 : ℝ) < 1 / 5 ∧
    ∃ f : ℝ → ℝ,
      (∀ s, ((EuropeanOption.ctor "Put" 1 100 100 0 (1 / 5) 2 none).sigma s).Price = some (f s))
      ∧ HasDerivAt f (EuropeanOption.ctor "Put" 1 100 100 0 (1 / 5) 2 none).Vega (1 / 5) :=
  ⟨by norm_num, by norm_num, by norm_num, by norm_num,
    C5_vega_is_price_deriv_sigma (EuropeanOption.ctor "Put" 1 100 100 0 (1 / 5) 2 none)
      (Or.inr rfl) (by norm_num [EuropeanOption.ctor]) (by norm_num [EuropeanOption.ctor])
      (by norm_num [EuropeanOption.ctor]) (by norm_num [EuropeanOption.ctor])⟩

/-! ## Sensitivity to maturity: theta -/

theorem D1_differentiableAt_T (o : EuropeanOption) (x : ℝ) (hx : 0 < x) (hsig : 0 < o.m_sigma) :
    DifferentiableAt ℝ (fun t => (o.T t).D1) x := by
  have hv : o.m_sigma * Real.sqrt x ≠ 0 := (mul_pos hsig (Real.sqrt_pos.mpr hx)).ne'
  have hs : DifferentiableAt ℝ (fun t : ℝ => Real.sqrt t) x :=
    (Real.hasDerivAt_sqrt hx.ne').differentiableAt
  show DifferentiableAt ℝ (fun t : ℝ =>
    (Real.log (o.m_S / o.m_K) + (o.m_b + o.m_sigma * o.m_sigma / 2) * t)
      / (o.m_sigma * Real.sqrt t)) x
  exact DifferentiableAt.div (by fun_prop) (hs.const_mul _) hv

/-- The Call price as a function of maturity: its derivative at every positive maturity `x`
is minus the value `Theta` computes on the Call branch. -/
theorem Price_call_hasDerivAt_T (o : EuropeanOption) (x : ℝ) (hx : 0 < x) (hS : 0 < o.m_S)
    (hK : 0 < o.m_K) (hsig : 0 < o.m_sigma) :
    HasDerivAt (fun t => o.m_S * Real.exp ((o.m_b - o.m_r) * t) * EuropeanOption.N (o.T t).D1
        - o.m_K * Real.exp (-o.m_r * t) * EuropeanOption.N ((o.T t).D2 (o.T t).D1))
      (-((-(o.m_S) * o.m_sigma * Real.exp ((o.m_b - o.m_r) * x)
            * EuropeanOption.N_prime (o.T x).D1 / (2 * Real.sqrt x))
          - ((o.m_b - o.m_r) * o.m_S * Real.exp ((o.m_b - o.m_r) * x)
            * EuropeanOption.N (o.T x).D1)
          - (o.m_r * o.m_K * Real.exp (-o.m_r * x)
            * EuropeanOption.N ((o.T x).D2 (o.T x).D1)))) x := by
  have hd1 := (D1_differentiableAt_T o x hx hsig).hasDerivAt
  have hd2 : HasDerivAt (fun t => (o.T t).D2 (o.T t).D1)
      (deriv (fun t => (o.T t).D1) x - o.m_sigma * (1 / (2 * Real.sqrt x))) x :=
    hd1.sub ((Real.hasDerivAt_sqrt hx.ne').const_mul o.m_sigma)
  have hN1 := (N_hasDerivAt (o.T x).D1).comp x hd1
  have hN2 := (N_hasDerivAt ((o.T x).D2 (o.T x).D1)).comp x hd2
  have hkey : o.m_S * Real.exp ((o.m_b - o.m_r) * x) * EuropeanOption.N_prime (o.T x).D1
      = o.m_K * Real.exp (-o.m_r * x) * EuropeanOption.N_prime ((o.T x).D2 (o.T x).D1) :=
    N_prime_D1_D2 (o.T x) hS hK hx hsig
  have hA : HasDerivAt (fun t : ℝ => Real.exp ((o.m_b - o.m_r) * t))
      (Real.exp ((o.m_b - o.m_r) * x) * ((o.m_b - o.m_r) * 1)) x :=
    ((hasDerivAt_id x).const_mul (o.m_b - o.m_r)).exp
  have hB : HasDerivAt (fun t : ℝ => Real.exp (-o.m_r * t))
      (Real.exp (-o.m_r * x) * (-o.m_r * 1)) x :=
    ((hasDerivAt_id x).const_mul (-o.m_r)).exp
  have h := ((hA.const_mul o.m_S).mul hN1).sub ((hB.const_mul o.m_K).mul hN2)
  convert h using 1
  simp only [Function.comp_apply]
  linear_combination
    (o.m_sigma * (1 / (2 * Real.sqrt x)) - deriv (fun t => (o.T t).D1) x) * hkey

/-- The Put price as a function of maturity: its derivative at every positive maturity. -/
theorem Price_put_hasDerivAt_T (o : EuropeanOption) (x : ℝ) (hx : 0 < x) (hS : 0 < o.m_S)
    (hK : 0 < o.m_K) (hsig : 0 < o.m_sigma) :
    HasDerivAt (fun t => o.m_K * Real.exp (-o.m_r * t)
          * (1 - EuropeanOption.N ((o.T t).D2 (o.T t).D1))
        - o.m_S * Real.exp ((o.m_b - o.m_r) * t) * (1 - EuropeanOption.N (o.T t).D1))
      (-((-(o.m_S) * o.m_sigma * Real.exp ((o.m_b - o.m_r) * x)
            * EuropeanOption.N_prime (o.T x).D1 / (2 * Real.sqrt x))
          + ((o.m_b - o.m_r) * o.m_S * Real.exp ((o.m_b - o.m_r) * x)
            * (1 - EuropeanOption.N (o.T x).D1))
          + (o.m_r * o.m_K * Real.exp (-o.m_r * x)
            * (1 - EuropeanOption.N ((o.T x).D2 (o.T x).D1))))) x := by
  have hA : HasDerivAt (fun t : ℝ => Real.exp ((o.m_b - o.m_r) * t))
      (Real.exp ((o.m_b - o.m_r) * x) * ((o.m_b - o.m_r) * 1)) x :=
    ((hasDerivAt_id x).const_mul (o.m_b - o.m_r)).exp
  have hB : HasDerivAt (fun t : ℝ => Real.exp (-o.m_r * t))
      (Real.exp (-o.m_r * x) * (-o.m_r * 1)) x :=
    ((hasDerivAt_id x).const_mul (-o.m_r)).exp
  have h := ((Price_call_hasDerivAt_T o x hx hS hK hsig).sub (hA.const_mul o.m_S)).add
    (hB.const_mul o.m_K)
  convert h using 1
  · funext t
    ring
  · ring

/-- On the Call branch `Theta` is minus the derivative of `Price` with respect to maturity. -/
theorem Theta_call_is_minus_price_deriv_T (o : EuropeanOption) (hty : o.m_type = "Call")
    (hS : 0 < o.m_S) (hK : 0 < o.m_K) (hT : 0 < o.m_T) (hsig : 0 < o.m_sigma) :
    ∃ (f : ℝ → ℝ) (th : ℝ), (∀ t, (o.T t).Price = some (f t)) ∧ o.Theta = some th
      ∧ HasDerivAt f (-th) o.m_T := by
  refine ⟨_, _, fun t => Price_call (o.T t) hty, ?_, Price_call_hasDerivAt_T o o.m_T hT hS hK hsig⟩
  simp only [EuropeanOption.Theta, hty, if_true]
  rfl

theorem Theta_put (o : EuropeanOption) (h : o.m_type = "Put") :
    o.Theta = some ((-(o.m_S) * o.m_sigma * Real.exp ((o.m_b - o.m_r) * o.m_T)
          * EuropeanOption.N_prime o.D1 / (2 * Real.sqrt o.m_T))
        - ((o.m_b - o.m_r) * o.m_S * Real.exp ((o.m_b - o.m_r) * o.m_T)
          * (1 - EuropeanOption.N o.D1))
        - (o.m_r * o.m_K * Real.exp (-o.m_r * o.m_T) * (1 - EuropeanOption.N (o.D2 o.D1)))) := by
  have hne : ("Put" : String) ≠ "Call" := by decide
  simp only [EuropeanOption.Theta, h, if_true, if_neg hne]

/-- On the Put branch the derivative of `Price` with respect to maturity is not `-Theta`: it
is off by twice the carry and discount terms, whose signs `Theta` has reversed. -/
theorem Theta_put_gap (o : EuropeanOption) (hty : o.m_type = "Put")
    (hS : 0 < o.m_S) (hK : 0 < o.m_K) (hT : 0 < o.m_T) (hsig : 0 < o.m_sigma) :
    ∃ (f : ℝ → ℝ) (th : ℝ), (∀ t, (o.T t).Price = some (f t)) ∧ o.Theta = some th
      ∧ HasDerivAt f (-th - 2 * ((o.m_b - o.m_r) * o.m_S * Real.exp ((o.m_b - o.m_r) * o.m_T)
            * (1 - EuropeanOption.N o.D1)
          + o.m_r * o.m_K * Real.exp (-o.m_r * o.m_T)
            * (1 - EuropeanOption.N (o.D2 o.D1)))) o.m_T := by
  refine ⟨_, _, fun t => Price_put (o.T t) hty, Theta_put o hty, ?_⟩
  have h := Price_put_hasDerivAt_T o o.m_T hT hS hK hsig
  convert h using 1
  show _ = -((-(o.m_S) * o.m_sigma * Real.exp ((o.m_b - o.m_r) * o.m_T)
            * EuropeanOption.N_prime o.D1 / (2 * Real.sqrt o.m_T))
          + ((o.m_b - o.m_r) * o.m_S * Real.exp ((o.m_b - o.m_r) * o.m_T)
            * (1 - EuropeanOption.N o.D1))
          + (o.m_r * o.m_K * Real.exp (-o.m_r * o.m_T)
            * (1 - EuropeanOption.N (o.D2 o.D1))))
  ring

/-- C6 (the code at a failing input): for the Put model with `T = 1`, `K = 1`, `S = 1`,
`r = 1/2`, `sigma = 1` and the cost of carry defaulted (`b = r`), `Price` as a function of
maturity is differentiable at `T` with derivative `-Theta - e^(-1/2) / 2`, so the value
`Theta` returns is not minus the derivative of `Price`. -/
theorem C6_theta_put_is_not_minus_price_deriv_T :
    ∃ (f : ℝ → ℝ) (th : ℝ),
      (∀ t, ((EuropeanOption.ctor "Put" 1 1 1 (1 / 2) 1 1 none).T t).Price = some (f t))
      ∧ (EuropeanOption.ctor "Put" 1 1 1 (1 / 2) 1 1 none).Theta = some th
      ∧ HasDerivAt f (-th - Real.exp (-(1 / 2)) / 2) 1
      ∧ ¬ HasDerivAt f (-th) 1 := by
  obtain ⟨f, th, hf, hth, hder⟩ :=
    Theta_put_gap (EuropeanOption.ctor "Put" 1 1 1 (1 / 2) 1 1 none) rfl
      (by norm_num [EuropeanOption.ctor]) (by norm_num [EuropeanOption.ctor])
      (by norm_num [EuropeanOption.ctor]) (by norm_num [EuropeanOption.ctor])
  have hD2 : (EuropeanOption.ctor "Put" 1 1 1 (1 / 2) 1 1 none).D2
      (EuropeanOption.ctor "Put" 1 1 1 (1 / 2) 1 1 none).D1 = 0 := by
    simp only [EuropeanOption.ctor, EuropeanOption.D1, EuropeanOption.D2]
    norm_num
  have hgap : HasDerivAt f (-th - Real.exp (-(1 / 2)) / 2) 1 := by
    convert hder using 1
    rw [hD2, N_zero]
    simp only [EuropeanOption.ctor]
    norm_num
    ring
  refine ⟨f, th, hf, hth, hgap, ?_⟩
  intro hbad
  have huniq := hbad.unique hgap
  have hpos : 0 < Real.exp (-(1 / 2 : ℝ)) := Real.exp_pos _
  linarith

/-! ## Sensitivity to the rate: rho -/

theorem Rho_call (o : EuropeanOption) (h : o.m_type = "Call") :
    o.Rho = some (o.m_K * o.m_T * Real.exp (-o.m_r * o.m_T) * EuropeanOption.N (o.D2 o.D1)) := by
  simp only [EuropeanOption.Rho, h, if_true]

theorem Rho_put (o : EuropeanOption) (h : o.m_type = "Put") :
    o.Rho = some (-o.m_K * o.m_T * Real.exp (-o.m_r * o.m_T)
      * (1 - EuropeanOption.N (o.D2 o.D1))) := by
  have hne : ("Put" : String) ≠ "Call" := by decide
  simp only [EuropeanOption.Rho, h, if_true, if_neg hne]

/-- With the cost of carry held fixed, the Call price as a function of the rate has
derivative `Rho - T S e^((b-r)T) N(d1)`. -/
theorem Price_call_hasDerivAt_r (o : EuropeanOption) (x : ℝ) :
    HasDerivAt (fun r' => o.m_S * Real.exp ((o.m_b - r') * o.m_T) * EuropeanOption.N (o.r r').D1
        - o.m_K * Real.exp (-r' * o.m_T) * EuropeanOption.N ((o.r r').D2 (o.r r').D1))
      (o.m_K * o.m_T * Real.exp (-x * o.m_T) * EuropeanOption.N (o.D2 o.D1)
        - o.m_T * o.m_S * Real.exp ((o.m_b - x) * o.m_T) * EuropeanOption.N o.D1) x := by
  have hA : HasDerivAt (fun r' : ℝ => Real.exp ((o.m_b - r') * o.m_T))
      (Real.exp ((o.m_b - x) * o.m_T) * ((0 - 1) * o.m_T)) x :=
    ((((hasDerivAt_const x o.m_b).sub (hasDerivAt_id x)).mul_const o.m_T)).exp
  have hB : HasDerivAt (fun r' : ℝ => Real.exp (-r' * o.m_T))
      (Real.exp (-x * o.m_T) * (-1 * o.m_T)) x :=
    (((hasDerivAt_id x).neg).mul_const o.m_T).exp
  have h := ((hA.const_mul o.m_S).mul_const (EuropeanOption.N o.D1)).sub
    ((hB.const_mul o.m_K).mul_const (EuropeanOption.N (o.D2 o.D1)))
  convert h using 1
  ring

/-- With the cost of carry held fixed, the Put price as a function of the rate has
derivative `Rho + T S e^((b-r)T) (1 - N(d1))`. -/
theorem Price_put_hasDerivAt_r (o : EuropeanOption) (x : ℝ) :
    HasDerivAt (fun r' => o.m_K * Real.exp (-r' * o.m_T)
          * (1 - EuropeanOption.N ((o.r r').D2 (o.r r').D1))
        - o.m_S * Real.exp ((o.m_b - r') * o.m_T) * (1 - EuropeanOption.N (o.r r').D1))
      (-o.m_K * o.m_T * Real.exp (-x * o.m_T) * (1 - EuropeanOption.N (o.D2 o.D1))
        + o.m_T * o.m_S * Real.exp ((o.m_b - x) * o.m_T) * (1 - EuropeanOption.N o.D1)) x := by
  have hA : HasDerivAt (fun r' : ℝ => Real.exp ((o.m_b - r') * o.m_T))
      (Real.exp ((o.m_b - x) * o.m_T) * ((0 - 1) * o.m_T)) x :=
    ((((hasDerivAt_const x o.m_b).sub (hasDerivAt_id x)).mul_const o.m_T)).exp
  have hB : HasDerivAt (fun r' : ℝ => Real.exp (-r' * o.m_T))
      (Real.exp (-x * o.m_T) * (-1 * o.m_T)) x :=
    (((hasDerivAt_id x).neg).mul_const o.m_T).exp
  have h := ((hB.const_mul o.m_K).mul_const (1 - EuropeanOption.N (o.D2 o.D1))).sub
    ((hA.const_mul o.m_S).mul_const (1 - EuropeanOption.N o.D1))
  convert h using 1
  ring

theorem D1_rate_with_carry (o : EuropeanOption) :
    ((o.r o.m_r).b (o.m_b + (o.m_r - o.m_r))).D1 = o.D1 := by
  simp only [EuropeanOption.r, EuropeanOption.b, EuropeanOption.D1, sub_self, add_zero]

/-- `D1` as a function of the rate when the cost of carry moves with the rate. -/
theorem D1_hasDerivAt_r_with_carry (o : EuropeanOption) :
    HasDerivAt (fun r' => ((o.r r').b (o.m_b + (r' - o.m_r))).D1)
      (o.m_T / (o.m_sigma * Real.sqrt o.m_T)) o.m_r := by
  have h := ((((((hasDerivAt_id o.m_r).sub_const o.m_r).const_add o.m_b).add_const
    (o.m_sigma * o.m_sigma / 2)).mul_const o.m_T).const_add (Real.log (o.m_S / o.m_K))).div_const
      (o.m_sigma * Real.sqrt o.m_T)
  convert h using 1
  rw [one_mul]

/-- When the cost of carry moves one-for-one with the rate (`b - r` fixed), the Call price
as a function of the rate has derivative `K T e^(-rT) N(d2)`. -/
theorem Price_call_hasDerivAt_r_with_carry (o : EuropeanOption) (hS : 0 < o.m_S)
    (hK : 0 < o.m_K) (hT : 0 < o.m_T) (hsig : 0 < o.m_sigma) :
    HasDerivAt (fun r' => o.m_S * Real.exp ((o.m_b + (r' - o.m_r) - r') * o.m_T)
          * EuropeanOption.N ((o.r r').b (o.m_b + (r' - o.m_r))).D1
        - o.m_K * Real.exp (-r' * o.m_T)
          * EuropeanOption.N (((o.r r').b (o.m_b + (r' - o.m_r))).D2
              ((o.r r').b (o.m_b + (r' - o.m_r))).D1))
      (o.m_K * o.m_T * Real.exp (-o.m_r * o.m_T) * EuropeanOption.N (o.D2 o.D1)) o.m_r := by
  have hd1 := D1_hasDerivAt_r_with_carry o
  have hd2 : HasDerivAt (fun r' => ((o.r r').b (o.m_b + (r' - o.m_r))).D2
      ((o.r r').b (o.m_b + (r' - o.m_r))).D1)
      (o.m_T / (o.m_sigma * Real.sqrt o.m_T)) o.m_r :=
    hd1.sub_const (o.m_sigma * Real.sqrt o.m_T)
  have hN1 := (N_hasDerivAt ((o.r o.m_r).b (o.m_b + (o.m_r - o.m_r))).D1).comp o.m_r hd1
  have hN2 := (N_hasDerivAt (((o.r o.m_r).b (o.m_b + (o.m_r - o.m_r))).D2
    ((o.r o.m_r).b (o.m_b + (o.m_r - o.m_r))).D1)).comp o.m_r hd2
  have hD2 : ((o.r o.m_r).b (o.m_b + (o.m_r - o.m_r))).D2
      ((o.r o.m_r).b (o.m_b + (o.m_r - o.m_r))).D1 = o.D2 o.D1 := by
    rw [D1_rate_with_carry]
    rfl
  rw [D1_rate_with_carry] at hN1
  rw [hD2] at hN2
  have hkey := N_prime_D1_D2 o hS hK hT hsig
  have hB : HasDerivAt (fun r' : ℝ => Real.exp (-r' * o.m_T))
      (Real.exp (-o.m_r * o.m_T) * (-1 * o.m_T)) o.m_r :=
    (((hasDerivAt_id o.m_r).neg).mul_const o.m_T).exp
  have h := (hN1.const_mul (o.m_S * Real.exp ((o.m_b - o.m_r) * o.m_T))).sub
    ((hB.const_mul o.m_K).mul hN2)
  have hexp : ∀ r' : ℝ, (o.m_b + (r' - o.m_r) - r') * o.m_T = (o.m_b - o.m_r) * o.m_T := by
    intro r'
    ring
  simp only [hexp]
  convert h using 1
  simp only [Function.comp_apply]
  rw [hD2]
  linear_combination (-(o.m_T / (o.m_sigma * Real.sqrt o.m_T))) * hkey

/-- When the cost of carry moves one-for-one with the rate (`b - r` fixed), the Put price
as a function of the rate has derivative `-K T e^(-rT) (1 - N(d2))`. -/
theorem Price_put_hasDerivAt_r_with_carry (o : EuropeanOption) (hS : 0 < o.m_S)
    (hK : 0 < o.m_K) (hT : 0 < o.m_T) (hsig : 0 < o.m_sigma) :
    HasDerivAt (fun r' => o.m_K * Real.exp (-r' * o.m_T)
          * (1 - EuropeanOption.N (((o.r r').b (o.m_b + (r' - o.m_r))).D2
              ((o.r r').b (o.m_b + (r' - o.m_r))).D1))
        - o.m_S * Real.exp ((o.m_b + (r' - o.m_r) - r') * o.m_T)
          * (1 - EuropeanOption.N ((o.r r').b (o.m_b + (r' - o.m_r))).D1))
      (-o.m_K * o.m_T * Real.exp (-o.m_r * o.m_T) * (1 - EuropeanOption.N (o.D2 o.D1)))
      o.m_r := by
  have hB : HasDerivAt (fun r' : ℝ => Real.exp (-r' * o.m_T))
      (Real.exp (-o.m_r * o.m_T) * (-1 * o.m_T)) o.m_r :=
    (((hasDerivAt_id o.m_r).neg).mul_const o.m_T).exp
  have h := ((Price_call_hasDerivAt_r_with_carry o hS hK hT hsig).add
    (hB.const_mul o.m_K)).sub_const (o.m_S * Real.exp ((o.m_b - o.m_r) * o.m_T))
  have hexp : ∀ r' : ℝ, (o.m_b + (r' - o.m_r) - r') * o.m_T = (o.m_b - o.m_r) * o.m_T := by
    intro r'
    ring
  simp only [hexp] at h ⊢
  convert h using 1
  · funext r'
    ring
  · ring

/-- C7 (counterexample): for the Call model with `T = 1`, `K = 1`, `S = 1`, `r = 0`,
`sigma = 1`, `b = -1/2`, the function `r' ↦ Price` of the model after the rate setter (cost of
carry unchanged) has derivative `Rho - e^(-1/2) / 2` at `r`, hence not `Rho`. -/
theorem C7_rho_is_not_price_deriv_rate_carry_fixed :
    ∃ (f : ℝ → ℝ) (rho : ℝ),
      (∀ r', ((EuropeanOption.ctor "Call" 1 1 1 0 1 1 (some (-(1 / 2)))).r r').Price
        = some (f r'))
      ∧ (EuropeanOption.ctor "Call" 1 1 1 0 1 1 (some (-(1 / 2)))).Rho = some rho
      ∧ HasDerivAt f (rho - Real.exp (-(1 / 2)) / 2) 0
      ∧ ¬ HasDerivAt f rho 0 := by
  have hD1 : (EuropeanOption.ctor "Call" 1 1 1 0 1 1 (some (-(1 / 2)))).D1 = 0 := by
    simp only [EuropeanOption.ctor, EuropeanOption.D1]
    norm_num
  have hd := Price_call_hasDerivAt_r (EuropeanOption.ctor "Call" 1 1 1 0 1 1 (some (-(1 / 2)))) 0
  have hgap : HasDerivAt
      (fun r' => (EuropeanOption.ctor "Call" 1 1 1 0 1 1 (some (-(1 / 2)))).m_S
          * Real.exp (((EuropeanOption.ctor "Call" 1 1 1 0 1 1 (some (-(1 / 2)))).m_b - r')
            * (EuropeanOption.ctor "Call" 1 1 1 0 1 1 (some (-(1 / 2)))).m_T)
          * EuropeanOption.N ((EuropeanOption.ctor "Call" 1 1 1 0 1 1 (some (-(1 / 2)))).r r').D1
        - (EuropeanOption.ctor "Call" 1 1 1 0 1 1 (some (-(1 / 2)))).m_K
          * Real.exp (-r' * (EuropeanOption.ctor "Call" 1 1 1 0 1 1 (some (-(1 / 2)))).m_T)
          * EuropeanOption.N
            (((EuropeanOption.ctor "Call" 1 1 1 0 1 1 (some (-(1 / 2)))).r r').D2
              ((EuropeanOption.ctor "Call" 1 1 1 0 1 1 (some (-(1 / 2)))).r r').D1))
      ((EuropeanOption.ctor "Call" 1 1 1 0 1 1 (some (-(1 / 2)))).m_K
          * (EuropeanOption.ctor "Call" 1 1 1 0 1 1 (some (-(1 / 2)))).m_T
          * Real.exp (-(EuropeanOption.ctor "Call" 1 1 1 0 1 1 (some (-(1 / 2)))).m_r
            * (EuropeanOption.ctor "Call" 1 1 1 0 1 1 (some (-(1 / 2)))).m_T)
          * EuropeanOption.N
            ((EuropeanOption.ctor "Call" 1 1 1 0 1 1 (some (-(1 / 2)))).D2
              (EuropeanOption.ctor "Call" 1 1 1 0 1 1 (some (-(1 / 2)))).D1)
        - Real.exp (-(1 / 2)) / 2) 0 := by
    convert hd using 1
    rw [hD1, N_zero]
    simp only [EuropeanOption.ctor]
    norm_num
    ring
  refine ⟨_, _, fun r' => Price_call _ rfl, Rho_call _ rfl, hgap, ?_⟩
  intro hbad
  have huniq := hbad.unique hgap
  have hpos : 0 < Real.exp (-(1 / 2 : ℝ)) := Real.exp_pos _
  linarith

/-- C7 (amended): `Rho` is the derivative of `Price` with respect to the rate when the cost
of carry moves one-for-one with the rate.  For a Call or a Put with `S > 0`, `K > 0`,
`T > 0`, `sigma > 0`, the model with rate `r'` and cost of carry `b + (r' - r)` returns a
price `f r'` for every `r'`, and `f` has derivative `Rho` at `r`. -/
theorem C7_rho_is_price_deriv_rate_with_carry (o : EuropeanOption)
    (hty : o.m_type = "Call" ∨ o.m_type = "Put")
    (hS : 0 < o.m_S) (hK : 0 < o.m_K) (hT : 0 < o.m_T) (hsig : 0 < o.m_sigma) :
    ∃ (f : ℝ → ℝ) (rho : ℝ),
      (∀ r', ((o.r r').b (o.m_b + (r' - o.m_r))).Price = some (f r'))
      ∧ o.Rho = some rho ∧ HasDerivAt f rho o.m_r := by
  rcases hty with hty | hty
  · exact ⟨_, _, fun r' => Price_call ((o.r r').b (o.m_b + (r' - o.m_r))) hty, Rho_call o hty,
      Price_call_hasDerivAt_r_with_carry o hS hK hT hsig⟩
  · exact ⟨_, _, fun r' => Price_put ((o.r r').b (o.m_b + (r' - o.m_r))) hty, Rho_put o hty,
      Price_put_hasDerivAt_r_with_carry o hS hK hT hsig⟩

/-- Witness for the amended C7: a Call with `T = 1/4`, `K = 65`, `S = 60`, `r = 2/25`,
`sigma = 3/10` and the cost of carry defaulted. -/
theorem C7_rho_is_price_deriv_rate_with_carry_witness :
    (0 : ℝ) < 60 ∧ (0 : ℝ) < 65 ∧ (0 : ℝ) < 1 / 4 ∧ (0 : ℝ) < 3 / 10 ∧
    ∃ (f : ℝ → ℝ) (rho : ℝ),
      (∀ r', (((EuropeanOption.ctor "Call" (1 / 4) 65 60 (2 / 25) (3 / 10) 1 none).r r').b
          ((EuropeanOption.ctor "Call" (1 / 4) 65 60 (2 / 25) (3 / 10) 1 none).m_b
            + (r' - (EuropeanOption.ctor "Call" (1 / 4) 65 60 (2 / 25) (3 / 10) 1 none).m_r))).Price
        = some (f r'))
      ∧ (EuropeanOption.ctor "Call" (1 / 4) 65 60 (2 / 25) (3 / 10) 1 none).Rho = some rho
      ∧ HasDerivAt f rho (2 / 25) :=
  ⟨by norm_num, by norm_num, by norm_num, by norm_num,
    C7_rho_is_price_deriv_rate_with_carry
      (EuropeanOption.ctor "Call" (1 / 4) 65 60 (2 / 25) (3 / 10) 1 none)
      (Or.inl rfl) (by norm_num [EuropeanOption.ctor]) (by norm_num [EuropeanOption.ctor])
      (by norm_num [EuropeanOption.ctor]) (by norm_num [EuropeanOption.ctor])⟩

/-! ## Central differences -/

theorem tendsto_neg_punctured : Tendsto (fun t : ℝ => -t) (𝓝[≠] 0) (𝓝[≠] 0) := by
  apply tendsto_nhdsWithin_of_tendsto_nhds_of_eventually_within
  · have h : Tendsto (fun t : ℝ => -t) (𝓝 0) (𝓝 (-0)) := (continuous_neg.tendsto 0)
    rw [neg_zero] at h
    exact h.mono_left nhdsWithin_le_nhds
  · filter_upwards [self_mem_nhdsWithin] with t ht
    simpa using ht

/-- The central difference quotient of a function differentiable at `x` tends to the
derivative. -/
theorem central_diff_tendsto {f : ℝ → ℝ} {f' x : ℝ} (hf : HasDerivAt f f' x) :
    Tendsto (fun h => (f (x + h) - f (x - h)) / (2 * h)) (𝓝[≠] 0) (𝓝 f') := by
  have h1 : Tendsto (fun t => t⁻¹ • (f (x + t) - f x)) (𝓝[≠] 0) (𝓝 f') :=
    hasDerivAt_iff_tendsto_slope_zero.mp hf
  have h2 : Tendsto (fun t => (-t)⁻¹ • (f (x + -t) - f x)) (𝓝[≠] 0) (𝓝 f') :=
    h1.comp tendsto_neg_punctured
  have h3 := (h1.add h2).const_mul (1 / 2)
  have hlim : 1 / 2 * (f' + f') = f' := by ring
  rw [hlim] at h3
  refine h3.congr fun t => ?_
  simp only [smul_eq_mul, inv_neg, ← sub_eq_add_neg]
  ring

/-- The second central difference quotient tends to the second derivative, when the first
derivative exists near `x` and is differentiable at `x`. -/
theorem second_central_diff_tendsto {f d : ℝ → ℝ} {g x : ℝ}
    (hf : ∀ᶠ y in 𝓝 x, HasDerivAt f (d y) y) (hd : HasDerivAt d g x) :
    Tendsto (fun h => (f (x + h) - 2 * f x + f (x - h)) / (h * h)) (𝓝[≠] 0) (𝓝 g) := by
  have hplus : Tendsto (fun h : ℝ => x + h) (𝓝 0) (𝓝 x) := by
    have h : Tendsto (fun h : ℝ => x + h) (𝓝 0) (𝓝 (x + 0)) :=
      (continuous_const.add continuous_id).tendsto 0
    rwa [add_zero] at h
  have hminus : Tendsto (fun h : ℝ => x - h) (𝓝 0) (𝓝 x) := by
    have h : Tendsto (fun h : ℝ => x - h) (𝓝 0) (𝓝 (x - 0)) :=
      (continuous_const.sub continuous_id).tendsto 0
    rwa [sub_zero] at h
  have hnum : ∀ᶠ h in 𝓝 (0 : ℝ),
      HasDerivAt (fun h => f (x + h) - 2 * f x + f (x - h)) (d (x + h) - d (x - h)) h := by
    filter_upwards [hplus.eventually hf, hminus.eventually hf] with h hp hm
    have h1 := HasDerivAt.comp_const_add x h hp
    have h2 := HasDerivAt.comp_const_sub x h hm
    have h3 := (h1.sub_const (2 * f x)).add h2
    convert h3 using 1
  have hden : ∀ h : ℝ, HasDerivAt (fun h : ℝ => h * h) (2 * h) h := by
    intro h
    have h1 := (hasDerivAt_id h).mul (hasDerivAt_id h)
    convert h1 using 1
    simp only [id]
    ring
  have hfx : HasDerivAt f (d x) x := hf.self_of_nhds
  have hnum0 : Tendsto (fun h => f (x + h) - 2 * f x + f (x - h)) (𝓝 0) (𝓝 0) := by
    have h1 : Tendsto (fun h => f (x + h)) (𝓝 0) (𝓝 (f x)) :=
      hfx.continuousAt.tendsto.comp hplus
    have h2 : Tendsto (fun h => f (x - h)) (𝓝 0) (𝓝 (f x)) :=
      hfx.continuousAt.tendsto.comp hminus
    have h3 := (h1.sub_const (2 * f x)).add h2
    have h0 : f x - 2 * f x + f x = 0 := by ring
    rwa [h0] at h3
  have hden0 : Tendsto (fun h : ℝ => h * h) (𝓝 0) (𝓝 0) := by
    have h : Tendsto (fun h : ℝ => h * h) (𝓝 0) (𝓝 (0 * 0)) :=
      (continuous_id.mul continuous_id).tendsto 0
    rwa [mul_zero] at h
  have hdiv : Tendsto (fun h => (d (x + h) - d (x - h)) / (2 * h)) (𝓝[≠] 0) (𝓝 g) :=
    central_diff_tendsto hd
  refine HasDerivAt.lhopital_zero_nhds' (eventually_nhdsWithin_of_eventually_nhds hnum)
    (Eventually.of_forall hden) ?_ (hnum0.mono_left nhdsWithin_le_nhds)
    (hden0.mono_left nhdsWithin_le_nhds) hdiv
  filter_upwards [self_mem_nhdsWithin] with h hh
  exact mul_ne_zero two_ne_zero hh

/-! ## Finite-difference sensitivities -/

/-- `NumericDelta h` is the central difference of `Price` in spot. -/
theorem NumericDelta_eq (o : EuropeanOption) (f : ℝ → ℝ)
    (hf : ∀ S', (o.S S').Price = some (f S')) (h : ℝ) :
    o.NumericDelta h = some ((f (o.m_S + h) - f (o.m_S - h)) / (2 * h)) := by
  have h1 : (EuropeanOption.ctor o.m_type o.m_T o.m_K (o.m_S + h) o.m_r o.m_sigma o.m_id
      (some o.m_b)).Price = some (f (o.m_S + h)) := hf (o.m_S + h)
  have h2 : (EuropeanOption.ctor o.m_type o.m_T o.m_K (o.m_S - h) o.m_r o.m_sigma o.m_id
      (some o.m_b)).Price = some (f (o.m_S - h)) := hf (o.m_S - h)
  unfold EuropeanOption.NumericDelta
  rw [h1, h2]
  rfl

/-- `NumericGamma h` is the second central difference of `Price` in spot. -/
theorem NumericGamma_eq (o : EuropeanOption) (f : ℝ → ℝ)
    (hf : ∀ S', (o.S S').Price = some (f S')) (h : ℝ) :
    o.NumericGamma h = some ((f (o.m_S + h) - 2 * f o.m_S + f (o.m_S - h)) / (h * h)) := by
  have h1 : (EuropeanOption.ctor o.m_type o.m_T o.m_K (o.m_S + h) o.m_r o.m_sigma o.m_id
      (some o.m_b)).Price = some (f (o.m_S + h)) := hf (o.m_S + h)
  have h2 : (EuropeanOption.ctor o.m_type o.m_T o.m_K (o.m_S - h) o.m_r o.m_sigma o.m_id
      (some o.m_b)).Price = some (f (o.m_S - h)) := hf (o.m_S - h)
  have h3 : o.Price = some (f o.m_S) := hf o.m_S
  unfold EuropeanOption.NumericGamma
  rw [h1, h2, h3]
  rfl

/-- Price, delta and gamma as functions of spot, for a Call or a Put: `Price` and `Delta`
return values `f S'` and `d S'` at every spot, `f' = d` and `d' = Gamma` at every positive
spot. -/
theorem Price_Delta_Gamma_spot (o : EuropeanOption) (hty : o.m_type = "Call" ∨ o.m_type = "Put")
    (hK : 0 < o.m_K) (hT : 0 < o.m_T) (hsig : 0 < o.m_sigma) :
    ∃ f d : ℝ → ℝ, (∀ S', (o.S S').Price = some (f S')) ∧ (∀ S', (o.S S').Delta = some (d S'))
      ∧ (∀ y, 0 < y → HasDerivAt f (d y) y) ∧ (∀ y, 0 < y → HasDerivAt d (o.S y).Gamma y) := by
  rcases hty with hty | hty
  · exact ⟨fun S' => S' * Real.exp ((o.m_b - o.m_r) * o.m_T) * EuropeanOption.N (o.S S').D1
        - o.m_K * Real.exp (-o.m_r * o.m_T) * EuropeanOption.N ((o.S S').D2 (o.S S').D1),
      fun S' => Real.exp ((o.m_b - o.m_r) * o.m_T) * EuropeanOption.N (o.S S').D1,
      fun S' => Price_call (o.S S') hty, fun S' => Delta_call (o.S S') hty,
      fun y hy => Price_call_hasDerivAt_S o y hy hK hT hsig,
      fun y hy => Delta_call_hasDerivAt_S o y hy hK⟩
  · exact ⟨fun S' => o.m_K * Real.exp (-o.m_r * o.m_T)
          * (1 - EuropeanOption.N ((o.S S').D2 (o.S S').D1))
        - S' * Real.exp ((o.m_b - o.m_r) * o.m_T) * (1 - EuropeanOption.N (o.S S').D1),
      fun S' => -Real.exp ((o.m_b - o.m_r) * o.m_T) * (1 - EuropeanOption.N (o.S S').D1),
      fun S' => Price_put (o.S S') hty, fun S' => Delta_put (o.S S') hty,
      fun y hy => Price_put_hasDerivAt_S o y hy hK hT hsig,
      fun y hy => Delta_put_hasDerivAt_S o y hy hK⟩

/-- C9: `NumericDelta h` is the central difference
`(Price at S+h - Price at S-h) / (2h)` and converges to `Delta`.  For a Call or a Put with
`S > 0`, `K > 0`, `T > 0`, `sigma > 0`, with `f S'` the price at spot `S'`, `NumericDelta h`
returns `(f (S+h) - f (S-h)) / (2h)` for every `h`, and this tends to the value `Delta`
returns as `h` tends to `0` through nonzero values. -/
theorem C9_numericDelta_tendsto_delta (o : EuropeanOption)
    (hty : o.m_type = "Call" ∨ o.m_type = "Put")
    (hS : 0 < o.m_S) (hK : 0 < o.m_K) (hT : 0 < o.m_T) (hsig : 0 < o.m_sigma) :
    ∃ (f nd : ℝ → ℝ) (d : ℝ), (∀ S', (o.S S').Price = some (f S'))
      ∧ (∀ h, o.NumericDelta h = some (nd h))
      ∧ (∀ h, nd h = (f (o.m_S + h) - f (o.m_S - h)) / (2 * h))
      ∧ o.Delta = some d
      ∧ Tendsto nd (𝓝[≠] 0) (𝓝 d) := by
  obtain ⟨f, d, hf, hd, hfd, _⟩ := Price_Delta_Gamma_spot o hty hK hT hsig
  exact ⟨f, fun h => (f (o.m_S + h) - f (o.m_S - h)) / (2 * h), d o.m_S, hf,
    NumericDelta_eq o f hf, fun _ => rfl, hd o.m_S, central_diff_tendsto (hfd o.m_S hS)⟩

/-- Witness for C9: a Call with `T = 1/4`, `K = 65`, `S = 60`, `r = 2/25`, `sigma = 3/10` and
the cost of carry defaulted. -/
theorem C9_numericDelta_tendsto_delta_witness :
    (0 : ℝ) < 60 ∧ (0 : ℝ) < 65 ∧ (0 : ℝ) < 1 / 4 ∧ (0 : ℝ) < 3 / 10 ∧
    ∃ (f nd : ℝ → ℝ) (d : ℝ),
      (∀ S', ((EuropeanOption.ctor "Call" (1 / 4) 65 60 (2 / 25) (3 / 10) 1 none).S S').Price
        = some (f S'))
      ∧ (∀ h, (EuropeanOption.ctor "Call" (1 / 4) 65 60 (2 / 25) (3 / 10) 1 none).NumericDelta h
        = some (nd h))
      ∧ (∀ h, nd h = (f (60 + h) - f (60 - h)) / (2 * h))
      ∧ (EuropeanOption.ctor "Call" (1 / 4) 65 60 (2 / 25) (3 / 10) 1 none).Delta = some d
      ∧ Tendsto nd (𝓝[≠] 0) (𝓝 d) :=
  ⟨by norm_num, by norm_num, by norm_num, by norm_num,
    C9_numericDelta_tendsto_delta
      (EuropeanOption.ctor "Call" (1 / 4) 65 60 (2 / 25) (3 / 10) 1 none)
      (Or.inl rfl) (by norm_num [EuropeanOption.ctor]) (by norm_num [EuropeanOption.ctor])
      (by norm_num [EuropeanOption.ctor]) (by norm_num [EuropeanOption.ctor])⟩

/-- C10: `NumericGamma h` is the second central difference
`(Price at S+h - 2 Price at S + Price at S-h) / h^2` and converges to `Gamma`.  For a Call or
a Put with `S > 0`, `K > 0`, `T > 0`, `sigma > 0`, with `f S'` the price at spot `S'`,
`NumericGamma h` returns `(f (S+h) - 2 f S + f (S-h)) / (h h)` for every `h`, and this tends
to `Gamma` as `h` tends to `0` through nonzero values. -/
theorem C10_numericGamma_tendsto_gamma (o : EuropeanOption)
    (hty : o.m_type = "Call" ∨ o.m_type = "Put")
    (hS : 0 < o.m_S) (hK : 0 < o.m_K) (hT : 0 < o.m_T) (hsig : 0 < o.m_sigma) :
    ∃ f ng : ℝ → ℝ, (∀ S', (o.S S').Price = some (f S'))
      ∧ (∀ h, o.NumericGamma h = some (ng h))
      ∧ (∀ h, ng h = (f (o.m_S + h) - 2 * f o.m_S + f (o.m_S - h)) / (h * h))
      ∧ Tendsto ng (𝓝[≠] 0) (𝓝 o.Gamma) := by
  have hpos : ∀ᶠ y in 𝓝 o.m_S, 0 < y := lt_mem_nhds hS
  obtain ⟨f, d, hf, _, hfd, hdg⟩ := Price_Delta_Gamma_spot o hty hK hT hsig
  exact ⟨f, fun h => (f (o.m_S + h) - 2 * f o.m_S + f (o.m_S - h)) / (h * h), hf,
    NumericGamma_eq o f hf, fun _ => rfl,
    second_central_diff_tendsto (hpos.mono fun y hy => hfd y hy) (hdg o.m_S hS)⟩

/-- Witness for C10: the Put of `main` (MCPricer.cpp, line 45), `T = 1`, `K = 100`,
`S = 100`, `r = 0`, `sigma = 1/5`. -/
theorem C10_numericGamma_tendsto_gamma_witness :
    (0 : ℝ) < 100 ∧ (0 : ℝ) < 100 ∧ (0 : ℝ) < 1 ∧ (0 : ℝ) < 1 / 5 ∧
    ∃ f ng : ℝ → ℝ,
      (∀ S', ((EuropeanOption.ctor "Put" 1 100 100 0 (1 / 5) 2 none).S S').Price = some (f S'))
      ∧ (∀ h, (EuropeanOption.ctor "Put" 1 100 100 0 (1 / 5) 2 none).NumericGamma h
        = some (ng h))
      ∧ (∀ h, ng h = (f (100 + h) - 2 * f 100 + f (100 - h)) / (h * h))
      ∧ Tendsto ng (𝓝[≠] 0) (𝓝 (EuropeanOption.ctor "Put" 1 100 100 0 (1 / 5) 2 none).Gamma) :=
  ⟨by norm_num, by norm_num, by norm_num, by norm_num,
    C10_numericGamma_tendsto_gamma (EuropeanOption.ctor "Put" 1 100 100 0 (1 / 5) 2 none)
      (Or.inr rfl) (by norm_num [EuropeanOption.ctor]) (by norm_num [EuropeanOption.ctor])
      (by norm_num [EuropeanOption.ctor]) (by norm_num [EuropeanOption.ctor])⟩

/-! ## Numerical bounds for the reference scenario -/

/-- Taylor bound: `e^(-u)` is within `5 u^4 / 96` of `1 - u + u^2/2 - u^3/6` on `[0, 1]`. -/
theorem exp_neg_taylor (u : ℝ) (h0 : 0 ≤ u) (h1 : u ≤ 1) :
    |Real.exp (-u) - (1 - u + u ^ 2 / 2 - u ^ 3 / 6)| ≤ u ^ 4 * (5 / 96) := by
  have habs : |(-u)| ≤ 1 := by
    rw [abs_neg, abs_of_nonneg h0]
    exact h1
  have h := Real.exp_bound habs (by norm_num : 0 < 4)
  rw [abs_neg, abs_of_nonneg h0] at h
  have hsum : ∑ m ∈ Finset.range 4, (-u) ^ m / (m.factorial : ℝ)
      = 1 - u + u ^ 2 / 2 - u ^ 3 / 6 := by
    simp only [Finset.sum_range_succ, Finset.sum_range_zero, Nat.factorial]
    norm_num
    ring
  rw [hsum] at h
  refine h.trans (le_of_eq ?_)
  norm_num [Nat.factorial]

/-- The density against its degree-6 Taylor polynomial, for `|x| ≤ 1`. -/
theorem N_prime_taylor (x : ℝ) (hx : |x| ≤ 1) :
    |EuropeanOption.N_prime x - 1 / Real.sqrt (2 * Real.pi)
        * (1 - x ^ 2 / 2 + x ^ 4 / 8 - x ^ 6 / 48)|
      ≤ 1 / Real.sqrt (2 * Real.pi) * (5 / 1536 * x ^ 8) := by
  have hc : 0 < 1 / Real.sqrt (2 * Real.pi) :=
    one_div_pos.mpr (Real.sqrt_pos.mpr (by positivity))
  have hx2 : x ^ 2 ≤ 1 := by
    have := sq_abs x
    nlinarith [abs_nonneg x]
  have hu0 : 0 ≤ x * x / 2 := by nlinarith [mul_self_nonneg x]
  have hu1 : x * x / 2 ≤ 1 := by nlinarith
  have h := exp_neg_taylor (x * x / 2) hu0 hu1
  unfold EuropeanOption.N_prime
  rw [← mul_sub, abs_mul, abs_of_pos hc]
  refine mul_le_mul_of_nonneg_left ?_ hc.le
  have e1 : 1 - x ^ 2 / 2 + x ^ 4 / 8 - x ^ 6 / 48
      = 1 - x * x / 2 + (x * x / 2) ^ 2 / 2 - (x * x / 2) ^ 3 / 6 := by ring
  have e2 : 5 / 1536 * x ^ 8 = (x * x / 2) ^ 4 * (5 / 96) := by ring
  rw [e1, e2]
  exact h

theorem poly_hasDerivAt (e x : ℝ) :
    HasDerivAt (fun y : ℝ => y - y ^ 3 / 6 + y ^ 5 / 40 - y ^ 7 / 336 + e * y ^ 9)
      (1 - x ^ 2 / 2 + x ^ 4 / 8 - x ^ 6 / 48 + e * (9 * x ^ 8)) x := by
  have h := ((((hasDerivAt_id x).sub ((hasDerivAt_pow 3 x).div_const 6)).add
    ((hasDerivAt_pow 5 x).div_const 40)).sub ((hasDerivAt_pow 7 x).div_const 336)).add
      ((hasDerivAt_pow 9 x).const_mul e)
  convert h using 1
  norm_num
  ring

theorem N_sub_poly_hasDerivAt (e x : ℝ) :
    HasDerivAt (fun y : ℝ => EuropeanOption.N y - 1 / Real.sqrt (2 * Real.pi)
        * (y - y ^ 3 / 6 + y ^ 5 / 40 - y ^ 7 / 336 + e * y ^ 9))
      (EuropeanOption.N_prime x - 1 / Real.sqrt (2 * Real.pi)
        * (1 - x ^ 2 / 2 + x ^ 4 / 8 - x ^ 6 / 48 + e * (9 * x ^ 8))) x :=
  (N_hasDerivAt x).sub ((poly_hasDerivAt e x).const_mul _)

/-- Upper bound for the distribution function on `[-1, 0]`. -/
theorem N_le_of_nonpos (q : ℝ) (h1 : -1 ≤ q) (h0 : q ≤ 0) :
    EuropeanOption.N q ≤ 1 / 2 + 1 / Real.sqrt (2 * Real.pi)
      * (q - q ^ 3 / 6 + q ^ 5 / 40 - q ^ 7 / 336 + -(5 / 13824) * q ^ 9) := by
  have hc : 0 < 1 / Real.sqrt (2 * Real.pi) :=
    one_div_pos.mpr (Real.sqrt_pos.mpr (by positivity))
  have hmono : MonotoneOn (fun y : ℝ => EuropeanOption.N y - 1 / Real.sqrt (2 * Real.pi)
      * (y - y ^ 3 / 6 + y ^ 5 / 40 - y ^ 7 / 336 + -(5 / 13824) * y ^ 9)) (Set.Icc (-1) 0) := by
    refine monotoneOn_of_deriv_nonneg (convex_Icc _ _)
      (fun x _ => (N_sub_poly_hasDerivAt _ x).continuousAt.continuousWithinAt)
      (fun x _ => (N_sub_poly_hasDerivAt _ x).differentiableAt.differentiableWithinAt) ?_
    intro x hx
    rw [interior_Icc] at hx
    rw [(N_sub_poly_hasDerivAt _ x).deriv]
    have habs : |x| ≤ 1 := abs_le.mpr ⟨hx.1.le, by linarith [hx.2]⟩
    have ht := (abs_le.mp (N_prime_taylor x habs)).1
    nlinarith
  have h : EuropeanOption.N q - 1 / Real.sqrt (2 * Real.pi)
        * (q - q ^ 3 / 6 + q ^ 5 / 40 - q ^ 7 / 336 + -(5 / 13824) * q ^ 9)
      ≤ EuropeanOption.N 0 - 1 / Real.sqrt (2 * Real.pi)
        * (0 - 0 ^ 3 / 6 + 0 ^ 5 / 40 - 0 ^ 7 / 336 + -(5 / 13824) * 0 ^ 9) :=
    hmono (Set.mem_Icc.mpr ⟨h1, h0⟩) (Set.mem_Icc.mpr ⟨by norm_num, le_refl _⟩) h0
  have hz : (0 : ℝ) - 0 ^ 3 / 6 + 0 ^ 5 / 40 - 0 ^ 7 / 336 + -(5 / 13824) * 0 ^ 9 = 0 := by
    norm_num
  rw [N_zero, hz, mul_zero, sub_zero] at h
  linarith

/-- Lower bound for the distribution function on `[-1, 0]`. -/
theorem N_ge_of_nonpos (q : ℝ) (h1 : -1 ≤ q) (h0 : q ≤ 0) :
    1 / 2 + 1 / Real.sqrt (2 * Real.pi)
      * (q - q ^ 3 / 6 + q ^ 5 / 40 - q ^ 7 / 336 + 5 / 13824 * q ^ 9) ≤ EuropeanOption.N q := by
  have hc : 0 < 1 / Real.sqrt (2 * Real.pi) :=
    one_div_pos.mpr (Real.sqrt_pos.mpr (by positivity))
  have hanti : AntitoneOn (fun y : ℝ => EuropeanOption.N y - 1 / Real.sqrt (2 * Real.pi)
      * (y - y ^ 3 / 6 + y ^ 5 / 40 - y ^ 7 / 336 + 5 / 13824 * y ^ 9)) (Set.Icc (-1) 0) := by
    refine antitoneOn_of_deriv_nonpos (convex_Icc _ _)
      (fun x _ => (N_sub_poly_hasDerivAt _ x).continuousAt.continuousWithinAt)
      (fun x _ => (N_sub_poly_hasDerivAt _ x).differentiableAt.differentiableWithinAt) ?_
    intro x hx
    rw [interior_Icc] at hx
    rw [(N_sub_poly_hasDerivAt _ x).deriv]
    have habs : |x| ≤ 1 := abs_le.mpr ⟨hx.1.le, by linarith [hx.2]⟩
    have ht := (abs_le.mp (N_prime_taylor x habs)).2
    nlinarith
  have h : EuropeanOption.N 0 - 1 / Real.sqrt (2 * Real.pi)
        * (0 - 0 ^ 3 / 6 + 0 ^ 5 / 40 - 0 ^ 7 / 336 + 5 / 13824 * 0 ^ 9)
      ≤ EuropeanOption.N q - 1 / Real.sqrt (2 * Real.pi)
        * (q - q ^ 3 / 6 + q ^ 5 / 40 - q ^ 7 / 336 + 5 / 13824 * q ^ 9) :=
    hanti (Set.mem_Icc.mpr ⟨h1, h0⟩) (Set.mem_Icc.mpr ⟨by norm_num, le_refl _⟩) h0
  have hz : (0 : ℝ) - 0 ^ 3 / 6 + 0 ^ 5 / 40 - 0 ^ 7 / 336 + 5 / 13824 * 0 ^ 9 = 0 := by
    norm_num
  rw [N_zero, hz, mul_zero, sub_zero] at h
  linarith

/-- Rational bounds for the normalising constant `1 / sqrt (2 π)`. -/
theorem inv_sqrt_two_pi_bounds :
    1000000 / 2506629 ≤ 1 / Real.sqrt (2 * Real.pi)
      ∧ 1 / Real.sqrt (2 * Real.pi) ≤ 1000000 / 2506628 := by
  have hlo : (2506628 / 1000000 : ℝ) ≤ Real.sqrt (2 * Real.pi) := by
    rw [Real.le_sqrt' (by norm_num)]
    have := Real.pi_gt_d6
    norm_num at this ⊢
    linarith
  have hhi : Real.sqrt (2 * Real.pi) ≤ (2506629 / 1000000 : ℝ) := by
    rw [Real.sqrt_le_left (by norm_num)]
    have := Real.pi_lt_d6
    norm_num at this ⊢
    linarith
  have hpos : 0 < Real.sqrt (2 * Real.pi) := Real.sqrt_pos.mpr (by positivity)
  constructor
  · rw [div_le_div_iff₀ (by norm_num) hpos]
    linarith
  · rw [div_le_div_iff₀ hpos (by norm_num)]
    linarith

/-- Upper bound for the distribution function on `[-1, 0]` with a rational constant. -/
theorem N_le_of_nonpos_rat (q : ℝ) (h1 : -1 ≤ q) (h0 : q ≤ 0)
    (hG : q - q ^ 3 / 6 + q ^ 5 / 40 - q ^ 7 / 336 + -(5 / 13824) * q ^ 9 ≤ 0) :
    EuropeanOption.N q ≤ 1 / 2 + 1000000 / 2506629
      * (q - q ^ 3 / 6 + q ^ 5 / 40 - q ^ 7 / 336 + -(5 / 13824) * q ^ 9) := by
  have h := N_le_of_nonpos q h1 h0
  have hc := inv_sqrt_two_pi_bounds.1
  nlinarith

/-- Lower bound for the distribution function on `[-1, 0]` with a rational constant. -/
theorem N_ge_of_nonpos_rat (q : ℝ) (h1 : -1 ≤ q) (h0 : q ≤ 0)
    (hG : q - q ^ 3 / 6 + q ^ 5 / 40 - q ^ 7 / 336 + 5 / 13824 * q ^ 9 ≤ 0) :
    1 / 2 + 1000000 / 2506628
      * (q - q ^ 3 / 6 + q ^ 5 / 40 - q ^ 7 / 336 + 5 / 13824 * q ^ 9) ≤ EuropeanOption.N q := by
  have h := N_ge_of_nonpos q h1 h0
  have hc := inv_sqrt_two_pi_bounds.2
  nlinarith

/-- Rational bounds for `log (60 / 65)`, from six terms of the series of `log (1 - 1/13)`. -/
theorem log_60_65_bounds :
    -(80043 / 1000000) ≤ Real.log (60 / 65) ∧ Real.log (60 / 65) ≤ -(80042 / 1000000) := by
  have hx : |(1 / 13 : ℝ)| < 1 := by
    rw [abs_of_pos (by norm_num)]
    norm_num
  have h := Real.abs_log_sub_add_sum_range_le hx 6
  rw [abs_of_pos (by norm_num : (0 : ℝ) < 1 / 13)] at h
  have harg : (1 : ℝ) - 1 / 13 = 60 / 65 := by norm_num
  rw [harg] at h
  simp only [Finset.sum_range_succ, Finset.sum_range_zero] at h
  have h' := abs_le.mp h
  constructor
  · have := h'.1
    norm_num at this
    linarith
  · have := h'.2
    norm_num at this
    linarith

/-- Rational bounds for the discount factor `e^(-0.02)`. -/
theorem exp_neg_002_bounds :
    980198 / 1000000 ≤ Real.exp (-(1 / 50)) ∧ Real.exp (-(1 / 50)) ≤ 980199 / 1000000 := by
  have h := abs_le.mp (exp_neg_taylor (1 / 50) (by norm_num) (by norm_num))
  constructor
  · have := h.1
    norm_num at this
    linarith
  · have := h.2
    norm_num at this
    linarith

theorem sqrt_quarter : Real.sqrt 0.25 = 1 / 2 := by
  have h : (0.25 : ℝ) = (1 / 2) ^ 2 := by norm_num
  rw [h, Real.sqrt_sq (by norm_num)]

/-- Rational bounds for `d1` in the reference scenario of `main` (MCPricer.cpp, line 15). -/
theorem D1_reference_bounds :
    -(325287 / 1000000) ≤ (EuropeanOption.ctor "Call" 0.25 65 60 0.08 0.3 1 none).D1
      ∧ (EuropeanOption.ctor "Call" 0.25 65 60 0.08 0.3 1 none).D1 ≤ -(32528 / 100000) := by
  have hD1 : (EuropeanOption.ctor "Call" 0.25 65 60 0.08 0.3 1 none).D1
      = (Real.log (60 / 65) + 1 / 32) / (3 / 20) := by
    simp only [EuropeanOption.ctor, EuropeanOption.D1]
    rw [sqrt_quarter]
    norm_num
  obtain ⟨hlo, hhi⟩ := log_60_65_bounds
  rw [hD1]
  constructor
  · rw [le_div_iff₀ (by norm_num)]
    linarith
  · rw [div_le_iff₀ (by norm_num)]
    linarith

theorem D2_reference_eq :
    (EuropeanOption.ctor "Call" 0.25 65 60 0.08 0.3 1 none).D2
        (EuropeanOption.ctor "Call" 0.25 65 60 0.08 0.3 1 none).D1
      = (EuropeanOption.ctor "Call" 0.25 65 60 0.08 0.3 1 none).D1 - 3 / 20 := by
  simp only [EuropeanOption.D2]
  have h : (EuropeanOption.ctor "Call" 0.25 65 60 0.08 0.3 1 none).m_sigma
      * Real.sqrt (EuropeanOption.ctor "Call" 0.25 65 60 0.08 0.3 1 none).m_T = 3 / 20 := by
    simp only [EuropeanOption.ctor]
    rw [sqrt_quarter]
    norm_num
  rw [h]

/-- Bounds for `N(d1)` in the reference scenario. -/
theorem N_D1_reference_bounds :
    372481 / 1000000 ≤ EuropeanOption.N (EuropeanOption.ctor "Call" 0.25 65 60 0.08 0.3 1 none).D1
      ∧ EuropeanOption.N (EuropeanOption.ctor "Call" 0.25 65 60 0.08 0.3 1 none).D1
        ≤ 372485 / 1000000 := by
  obtain ⟨hlo, hhi⟩ := D1_reference_bounds
  constructor
  · have h1 := N_ge_of_nonpos_rat (-(325287 / 1000000)) (by norm_num) (by norm_num)
      (by norm_num)
    have h2 := N_strictMono.monotone hlo
    refine le_trans ?_ (le_trans h1 h2)
    norm_num
  · have h1 := N_le_of_nonpos_rat (-(32528 / 100000)) (by norm_num) (by norm_num)
      (by norm_num)
    have h2 := N_strictMono.monotone hhi
    refine le_trans h2 (le_trans h1 ?_)
    norm_num

/-- Bounds for `N(d2)` in the reference scenario. -/
theorem N_D2_reference_bounds :
    317291 / 1000000 ≤ EuropeanOption.N
        ((EuropeanOption.ctor "Call" 0.25 65 60 0.08 0.3 1 none).D2
          (EuropeanOption.ctor "Call" 0.25 65 60 0.08 0.3 1 none).D1)
      ∧ EuropeanOption.N
        ((EuropeanOption.ctor "Call" 0.25 65 60 0.08 0.3 1 none).D2
          (EuropeanOption.ctor "Call" 0.25 65 60 0.08 0.3 1 none).D1) ≤ 317295 / 1000000 := by
  obtain ⟨hlo, hhi⟩ := D1_reference_bounds
  rw [D2_reference_eq]
  constructor
  · have h1 := N_ge_of_nonpos_rat (-(475287 / 1000000)) (by norm_num) (by norm_num)
      (by norm_num)
    have h2 : EuropeanOption.N (-(475287 / 1000000))
        ≤ EuropeanOption.N ((EuropeanOption.ctor "Call" 0.25 65 60 0.08 0.3 1 none).D1 - 3 / 20) :=
      N_strictMono.monotone (by linarith)
    refine le_trans ?_ (le_trans h1 h2)
    norm_num
  · have h1 := N_le_of_nonpos_rat (-(47528 / 100000)) (by norm_num) (by norm_num)
      (by norm_num)
    have h2 : EuropeanOption.N ((EuropeanOption.ctor "Call" 0.25 65 60 0.08 0.3 1 none).D1 - 3 / 20)
        ≤ EuropeanOption.N (-(47528 / 100000)) :=
      N_strictMono.monotone (by linarith)
    refine le_trans h2 (le_trans h1 ?_)
    norm_num

/-- C8: the reference scenario.  For the Call model of `main` with `T = 0.25`, `K = 65`,
`S = 60`, `r = 0.08`, `sigma = 0.3` and the cost of carry defaulted (`b = r`), `Price`
returns a value `p` with `|p - 2.13| < 0.005`. -/
theorem C8_reference_price :
    ∃ p : ℝ, (EuropeanOption.ctor "Call" 0.25 65 60 0.08 0.3 1 none).Price = some p
      ∧ |p - 2.13| < 0.005 := by
  refine ⟨_, Price_call _ rfl, ?_⟩
  obtain ⟨h1lo, h1hi⟩ := N_D1_reference_bounds
  obtain ⟨h2lo, h2hi⟩ := N_D2_reference_bounds
  obtain ⟨helo, hehi⟩ := exp_neg_002_bounds
  have hA : Real.exp (((EuropeanOption.ctor "Call" 0.25 65 60 0.08 0.3 1 none).m_b
      - (EuropeanOption.ctor "Call" 0.25 65 60 0.08 0.3 1 none).m_r)
      * (EuropeanOption.ctor "Call" 0.25 65 60 0.08 0.3 1 none).m_T) = 1 := by
    simp only [EuropeanOption.ctor, sub_self, zero_mul, Real.exp_zero]
  have hB : Real.exp (-(EuropeanOption.ctor "Call" 0.25 65 60 0.08 0.3 1 none).m_r
      * (EuropeanOption.ctor "Call" 0.25 65 60 0.08 0.3 1 none).m_T) = Real.exp (-(1 / 50)) := by
    simp only [EuropeanOption.ctor]
    norm_num
  have hS : (EuropeanOption.ctor "Call" 0.25 65 60 0.08 0.3 1 none).m_S = 60 := rfl
  have hK : (EuropeanOption.ctor "Call" 0.25 65 60 0.08 0.3 1 none).m_K = 65 := rfl
  rw [hA, hB, hS, hK]
  have hprod_lo : 980198 / 1000000 * (317291 / 1000000)
      ≤ Real.exp (-(1 / 50)) * EuropeanOption.N
        ((EuropeanOption.ctor "Call" 0.25 65 60 0.08 0.3 1 none).D2
          (EuropeanOption.ctor "Call" 0.25 65 60 0.08 0.3 1 none).D1) :=
    mul_le_mul helo h2lo (by norm_num) (Real.exp_pos _).le
  have hprod_hi : Real.exp (-(1 / 50)) * EuropeanOption.N
        ((EuropeanOption.ctor "Call" 0.25 65 60 0.08 0.3 1 none).D2
          (EuropeanOption.ctor "Call" 0.25 65 60 0.08 0.3 1 none).D1)
      ≤ 980199 / 1000000 * (317295 / 1000000) :=
    mul_le_mul hehi h2hi (le_trans (by norm_num) h2lo) (by norm_num)
  rw [abs_lt]
  constructor
  · norm_num at hprod_hi ⊢
    linarith
  · norm_num at hprod_lo ⊢
    linarith

/-! ## Construction, accessors and setters -/

/-- C11: the cost of carry defaults to the risk-free rate.  A model constructed without an
explicit cost of carry (`none`, the NaN default) has `b() = r`; a model constructed with an
explicit cost of carry `b0` has `b() = b0`; and every other accessor returns the constructor
argument unchanged, whatever the cost-of-carry argument. -/
theorem C11_cost_of_carry_default (type : String) (T K S r sigma b0 : ℝ) (id : Int) :
    (EuropeanOption.ctor type T K S r sigma id none).get_b = r
      ∧ (EuropeanOption.ctor type T K S r sigma id (some b0)).get_b = b0
      ∧ ∀ b : Option ℝ,
        (EuropeanOption.ctor type T K S r sigma id b).get_type = type
        ∧ (EuropeanOption.ctor type T K S r sigma id b).get_T = T
        ∧ (EuropeanOption.ctor type T K S r sigma id b).get_K = K
        ∧ (EuropeanOption.ctor type T K S r sigma id b).get_S = S
        ∧ (EuropeanOption.ctor type T K S r sigma id b).get_r = r
        ∧ (EuropeanOption.ctor type T K S r sigma id b).get_sigma = sigma
        ∧ (EuropeanOption.ctor type T K S r sigma id b).get_id = id :=
  ⟨rfl, rfl, fun _ => ⟨rfl, rfl, rfl, rfl, rfl, rfl, rfl⟩⟩

/-- C12: each fluent setter changes exactly one field.  For every model `o` and values `ty`,
`v`, each of the seven setters (`type`, `T`, `K`, `S`, `r`, `sigma`, `b`) returns the mutated
model: its own accessor returns the new value and the seven other accessors (the id
included) return what they returned on `o`.  Chained setters compose in call order: the
chain `o.type(ty).T(v1).K(v2).S(v3).r(v4).sigma(v5).b(v6)` has every field set and the id
unchanged, and of two calls of one setter the later one wins. -/
theorem C12_setters_change_one_field (o : EuropeanOption) (ty : String)
    (v v1 v2 v3 v4 v5 v6 : ℝ) :
    ((o.type ty).get_type = ty
        ∧ (o.type ty).get_T = o.get_T
        ∧ (o.type ty).get_K = o.get_K
        ∧ (o.type ty).get_S = o.get_S
        ∧ (o.type ty).get_r = o.get_r
        ∧ (o.type ty).get_sigma = o.get_sigma
        ∧ (o.type ty).get_b = o.get_b
        ∧ (o.type ty).get_id = o.get_id)
      ∧ ((o.T v).get_type = o.get_type
        ∧ (o.T v).get_T = v
        ∧ (o.T v).get_K = o.get_K
        ∧ (o.T v).get_S = o.get_S
        ∧ (o.T v).get_r = o.get_r
        ∧ (o.T v).get_sigma = o.get_sigma
        ∧ (o.T v).get_b = o.get_b
        ∧ (o.T v).get_id = o.get_id)
      ∧ ((o.K v).get_type = o.get_type
        ∧ (o.K v).get_T = o.get_T
        ∧ (o.K v).get_K = v
        ∧ (o.K v).get_S = o.get_S
        ∧ (o.K v).get_r = o.get_r
        ∧ (o.K v).get_sigma = o.get_sigma
        ∧ (o.K v).get_b = o.get_b
        ∧ (o.K v).get_id = o.get_id)
      ∧ ((o.S v).get_type = o.get_type
        ∧ (o.S v).get_T = o.get_T
        ∧ (o.S v).get_K = o.get_K
        ∧ (o.S v).get_S = v
        ∧ (o.S v).get_r = o.get_r
        ∧ (o.S v).get_sigma = o.get_sigma
        ∧ (o.S v).get_b = o.get_b
        ∧ (o.S v).get_id = o.get_id)
      ∧ ((o.r v).get_type = o.get_type
        ∧ (o.r v).get_T = o.get_T
        ∧ (o.r v).get_K = o.get_K
        ∧ (o.r v).get_S = o.get_S
        ∧ (o.r v).get_r = v
        ∧ (o.r v).get_sigma = o.get_sigma
        ∧ (o.r v).get_b = o.get_b
        ∧ (o.r v).get_id = o.get_id)
      ∧ ((o.sigma v).get_type = o.get_type
        ∧ (o.sigma v).get_T = o.get_T
        ∧ (o.sigma v).get_K = o.get_K
        ∧ (o.sigma v).get_S = o.get_S
        ∧ (o.sigma v).get_r = o.get_r
        ∧ (o.sigma v).get_sigma = v
        ∧ (o.sigma v).get_b = o.get_b
        ∧ (o.sigma v).get_id = o.get_id)
      ∧ ((o.b v).get_type = o.get_type
        ∧ (o.b v).get_T = o.get_T
        ∧ (o.b v).get_K = o.get_K
        ∧ (o.b v).get_S = o.get_S
        ∧ (o.b v).get_r = o.get_r
        ∧ (o.b v).get_sigma = o.get_sigma
        ∧ (o.b v).get_b = v
        ∧ (o.b v).get_id = o.get_id)
      ∧ ((((((((o.type ty).T v1).K v2).S v3).r v4).sigma v5).b v6).get_type = ty
        ∧ (((((((o.type ty).T v1).K v2).S v3).r v4).sigma v5).b v6).get_T = v1
        ∧ (((((((o.type ty).T v1).K v2).S v3).r v4).sigma v5).b v6).get_K = v2
        ∧ (((((((o.type ty).T v1).K v2).S v3).r v4).sigma v5).b v6).get_S = v3
       
        ∧ (((((((o.type ty).T v1).K v2).S v3).r v4).sigma v5).b v6).get_r = v4
        ∧ (((((((o.type ty).T v1).K v2).S v3).r v4).sigma v5).b v6).get_sigma = v5
        ∧ (((((((o.type ty).T v1).K v2).S v3).r v4).sigma v5).b v6).get_b = v6
        ∧ (((((((o.type ty).T v1).K v2).S v3).r v4).sigma v5).b v6).get_id = o.get_id)
      ∧ ((o.T v1).T v2 = o.T v2 ∧ ((o.S v1).K v2).S v3 = (o.K v2).S v3) :=
  ⟨⟨rfl, rfl, rfl, rfl, rfl, rfl, rfl, rfl⟩,
    ⟨rfl, rfl, rfl, rfl, rfl, rfl, rfl, rfl⟩, ⟨rfl, rfl, rfl, rfl, rfl, rfl, rfl, rfl⟩,
    ⟨rfl, rfl, rfl, rfl, rfl, rfl, rfl, rfl⟩, ⟨rfl, rfl, rfl, rfl, rfl, rfl, rfl, rfl⟩,
    ⟨rfl, rfl, rfl, rfl, rfl, rfl, rfl, rfl⟩, ⟨rfl, rfl, rfl, rfl, rfl, rfl, rfl, rfl⟩,
    ⟨rfl, rfl, rfl, rfl, rfl, rfl, rfl, rfl⟩, ⟨rfl, rfl⟩⟩

/-! ## The parity check -/

theorem N_nonneg (x : ℝ) : 0 ≤ EuropeanOption.N x := by
  unfold EuropeanOption.N
  exact setIntegral_nonneg measurableSet_Iic fun t _ => (N_prime_pos t).le

/-- What `CheckPutCallParity` reports, in terms of the value `PricePutCallParity` returns:
the test is `|m - p| / p ≤ t`, with `p` itself as the divisor. -/
theorem CheckPutCallParity_eq (o : EuropeanOption) (m t p : ℝ)
    (hp : o.PricePutCallParity = some p) :
    o.CheckPutCallParity m t
      = some (if |m - p| / p ≤ t
          then ("Put-Call Parity is satisfied within a ", t, " threshold")
          else ("Put-Call Parity is not satisfied within a ", t, " threshold")) := by
  unfold EuropeanOption.CheckPutCallParity
  rw [hp]
  show (if |m - p| / p ≤ t then _ else _) = _
  split <;> rfl

/-- C16 (the code at a failing input): for the Call model with `T = 1`, `K = 1`, `S = 1`,
`r = 2`, `sigma = 1`, `b = -1/2`, market price `0` and threshold `1/20`, `PricePutCallParity`
returns a negative `p`; the relative deviation `|m - p| / |p|` is `1 > 1/20`, yet
`CheckPutCallParity` reports "satisfied": `rel_diff` divides by `p`, not by `|p|`. -/
theorem C16_check_reports_satisfied_for_negative_price :
    ∃ p : ℝ, (EuropeanOption.ctor "Call" 1 1 1 2 1 1 (some (-(1 / 2)))).PricePutCallParity = some p
      ∧ p ≠ 0
      ∧ (EuropeanOption.ctor "Call" 1 1 1 2 1 1 (some (-(1 / 2)))).CheckPutCallParity 0 (1 / 20)
        = some ("Put-Call Parity is satisfied within a ", 1 / 20, " threshold")
      ∧ ¬ (|0 - p| / |p| ≤ 1 / 20) := by
  have hp := PricePutCallParity_call (EuropeanOption.ctor "Call" 1 1 1 2 1 1 (some (-(1 / 2)))) rfl
  have hD1 : (EuropeanOption.ctor "Call" 1 1 1 2 1 1 (some (-(1 / 2)))).D1 = 0 := by
    simp only [EuropeanOption.ctor, EuropeanOption.D1]
    norm_num
  have hneg : (EuropeanOption.ctor "Call" 1 1 1 2 1 1 (some (-(1 / 2)))).m_S
        * Real.exp (((EuropeanOption.ctor "Call" 1 1 1 2 1 1 (some (-(1 / 2)))).m_b
            - (EuropeanOption.ctor "Call" 1 1 1 2 1 1 (some (-(1 / 2)))).m_r)
          * (EuropeanOption.ctor "Call" 1 1 1 2 1 1 (some (-(1 / 2)))).m_T)
        * EuropeanOption.N (EuropeanOption.ctor "Call" 1 1 1 2 1 1 (some (-(1 / 2)))).D1
      - (EuropeanOption.ctor "Call" 1 1 1 2 1 1 (some (-(1 / 2)))).m_K
        * Real.exp (-(EuropeanOption.ctor "Call" 1 1 1 2 1 1 (some (-(1 / 2)))).m_r
          * (EuropeanOption.ctor "Call" 1 1 1 2 1 1 (some (-(1 / 2)))).m_T)
        * EuropeanOption.N ((EuropeanOption.ctor "Call" 1 1 1 2 1 1 (some (-(1 / 2)))).D2
            (EuropeanOption.ctor "Call" 1 1 1 2 1 1 (some (-(1 / 2)))).D1)
      + (EuropeanOption.ctor "Call" 1 1 1 2 1 1 (some (-(1 / 2)))).m_K
        * Real.exp (-(EuropeanOption.ctor "Call" 1 1 1 2 1 1 (some (-(1 / 2)))).m_r
          * (EuropeanOption.ctor "Call" 1 1 1 2 1 1 (some (-(1 / 2)))).m_T)
      - (EuropeanOption.ctor "Call" 1 1 1 2 1 1 (some (-(1 / 2)))).m_S < 0 := by
    have hD2 : (EuropeanOption.ctor "Call" 1 1 1 2 1 1 (some (-(1 / 2)))).D2 0 = -1 := by
      simp only [EuropeanOption.ctor, EuropeanOption.D2]
      norm_num
    rw [hD1, hD2, N_zero]
    have hN := N_nonneg (-1)
    simp only [EuropeanOption.ctor]
    have hA : Real.exp ((-(1 / 2) - 2) * 1) ≤ 1 := by
      rw [Real.exp_le_one_iff]
      norm_num
    have hB : Real.exp (-2 * 1) ≤ 1 / 3 := by
      have h3 : (2 : ℝ) + 1 ≤ Real.exp 2 := Real.add_one_le_exp 2
      have hexp : Real.exp (-2 * 1) = (Real.exp 2)⁻¹ := by
        rw [← Real.exp_neg]
        norm_num
      rw [hexp, inv_le_comm₀ (Real.exp_pos 2) (by norm_num)]
      norm_num
      linarith
    have hBpos : 0 < Real.exp (-2 * 1) := Real.exp_pos _
    have hBN := mul_nonneg hBpos.le hN
    generalize Real.exp (-2 * 1) = B at hB hBN ⊢
    generalize Real.exp ((-(1 / 2) - 2) * 1) = A at hA ⊢
    linarith
  refine ⟨_, hp, hneg.ne, ?_, ?_⟩
  · rw [CheckPutCallParity_eq _ _ _ _ hp]
    rw [if_pos]
    rw [zero_sub, abs_neg, abs_of_neg hneg, neg_div, div_self hneg.ne]
    norm_num
  · rw [zero_sub, abs_neg, div_self (abs_ne_zero.mpr hneg.ne)]
    norm_num

/-- For a positive parity price `CheckPutCallParity` reports by the relative deviation:
"satisfied" if `|m - p| / |p| ≤ t` and "not satisfied" otherwise. -/
theorem CheckPutCallParity_of_pos (o : EuropeanOption) (m t p : ℝ)
    (hp : o.PricePutCallParity = some p) (hpos : 0 < p) :
    (|m - p| / |p| ≤ t → o.CheckPutCallParity m t
        = some ("Put-Call Parity is satisfied within a ", t, " threshold"))
      ∧ (¬ (|m - p| / |p| ≤ t) → o.CheckPutCallParity m t
        = some ("Put-Call Parity is not satisfied within a ", t, " threshold")) := by
  rw [abs_of_pos hpos]
  refine ⟨fun h => ?_, fun h => ?_⟩
  · rw [CheckPutCallParity_eq o m t p hp, if_pos h]
  · rw [CheckPutCallParity_eq o m t p hp, if_neg h]

/-- For a negative parity price and a non-negative threshold `CheckPutCallParity` reports
"satisfied" for every market price: the quotient `|m - p| / p` is never positive. -/
theorem CheckPutCallParity_of_neg (o : EuropeanOption) (m t p : ℝ)
    (hp : o.PricePutCallParity = some p) (hneg : p < 0) (ht : 0 ≤ t) :
    o.CheckPutCallParity m t
      = some ("Put-Call Parity is satisfied within a ", t, " threshold") := by
  have hq : |m - p| / p ≤ t :=
    le_trans (div_nonpos_of_nonneg_of_nonpos (abs_nonneg _) hneg.le) ht
  rw [CheckPutCallParity_eq o m t p hp, if_pos hq]

/-! ## Second-order sensitivities: vanna and vomma -/

/-- The derivative of the density: `N''(x) = -x N'(x)`. -/
theorem N_prime_hasDerivAt (x : ℝ) :
    HasDerivAt EuropeanOption.N_prime (-x * EuropeanOption.N_prime x) x := by
  have h1 : HasDerivAt (fun y : ℝ => -(y * y / 2)) (-x) x := by
    have h := (((hasDerivAt_id x).mul (hasDerivAt_id x)).div_const 2).neg
    convert h using 1
    simp only [id]
    ring
  have h2 := (h1.exp).const_mul (1 / Real.sqrt (2 * Real.pi))
  unfold EuropeanOption.N_prime
  convert h2 using 1
  ring

/-- `Vega` as a function of spot has derivative `e^((b-r)T) N'(d1) (sqrt T - d1 / sigma)` at
every positive spot `x`. -/
theorem Vega_hasDerivAt_S (o : EuropeanOption) (x : ℝ) (hx : 0 < x) (hK : 0 < o.m_K)
    (hT : 0 < o.m_T) (hsig : 0 < o.m_sigma) :
    HasDerivAt (fun S' => (o.S S').Vega)
      (Real.exp ((o.m_b - o.m_r) * o.m_T) * EuropeanOption.N_prime (o.S x).D1
        * (Real.sqrt o.m_T - (o.S x).D1 / o.m_sigma)) x := by
  have hd1 := D1_hasDerivAt_S o x hx hK
  have hN1 := (N_prime_hasDerivAt (o.S x).D1).comp x hd1
  have h := (((hasDerivAt_id x).mul_const (Real.sqrt o.m_T)).mul_const
    (Real.exp ((o.m_b - o.m_r) * o.m_T))).mul hN1
  have hsq : 0 < Real.sqrt o.m_T := Real.sqrt_pos.mpr hT
  convert h using 1
  simp only [Function.comp_apply, id]
  field_simp
  ring

/-- The derivative of `D1` with respect to volatility is `-d2 / sigma`. -/
theorem D1_hasDerivAt_sigma (o : EuropeanOption) (x : ℝ) (hx : 0 < x) (hT : 0 < o.m_T) :
    HasDerivAt (fun s => (o.sigma s).D1) (-((o.sigma x).D2 (o.sigma x).D1) / x) x := by
  have hsq : 0 < Real.sqrt o.m_T := Real.sqrt_pos.mpr hT
  have hss : Real.sqrt o.m_T * Real.sqrt o.m_T = o.m_T := Real.mul_self_sqrt hT.le
  have hv : x * Real.sqrt o.m_T ≠ 0 := (mul_pos hx hsq).ne'
  have hnum : HasDerivAt (fun s : ℝ =>
      Real.log (o.m_S / o.m_K) + (o.m_b + s * s / 2) * o.m_T) (x * o.m_T) x := by
    have h := (((((hasDerivAt_id x).mul (hasDerivAt_id x)).div_const 2).const_add o.m_b).mul_const
      o.m_T).const_add (Real.log (o.m_S / o.m_K))
    convert h using 1
    simp only [id]
    ring
  have hden : HasDerivAt (fun s : ℝ => s * Real.sqrt o.m_T) (Real.sqrt o.m_T) x := by
    have h := (hasDerivAt_id x).mul_const (Real.sqrt o.m_T)
    convert h using 1
    rw [one_mul]
  have h := hnum.div hden hv
  show HasDerivAt (fun s : ℝ =>
    (Real.log (o.m_S / o.m_K) + (o.m_b + s * s / 2) * o.m_T) / (s * Real.sqrt o.m_T)) _ x
  convert h using 1
  show -((Real.log (o.m_S / o.m_K) + (o.m_b + x * x / 2) * o.m_T) / (x * Real.sqrt o.m_T)
      - x * Real.sqrt o.m_T) / x = _
  field_simp
  linear_combination (4 * x ^ 4 * Real.sqrt o.m_T ^ 2) * hss

/-- `Vega` as a function of volatility has derivative `Vega d1 d2 / sigma` at every positive
volatility `x`. -/
theorem Vega_hasDerivAt_sigma (o : EuropeanOption) (x : ℝ) (hx : 0 < x) (hT : 0 < o.m_T) :
    HasDerivAt (fun s => (o.sigma s).Vega)
      ((o.sigma x).Vega * (o.sigma x).D1 * ((o.sigma x).D2 (o.sigma x).D1) / x) x := by
  have hd1 := D1_hasDerivAt_sigma o x hx hT
  have hN1 := (N_prime_hasDerivAt (o.sigma x).D1).comp x hd1
  have h := hN1.const_mul (o.m_S * Real.sqrt o.m_T * Real.exp ((o.m_b - o.m_r) * o.m_T))
  convert h using 1
  show o.m_S * Real.sqrt o.m_T * Real.exp ((o.m_b - o.m_r) * o.m_T)
      * EuropeanOption.N_prime (o.sigma x).D1 * (o.sigma x).D1
      * ((o.sigma x).D2 (o.sigma x).D1) / x = _
  ring

/-- C17 (the code at a failing input): for the model with `T = 1`, `K = 1`, `S = 1`, `r = 0`,
`sigma = 1`, `b = -1/2` (so `d1 = 0`), `Vega` as a function of spot is differentiable at `S`
with derivative `-Vanna`, and `Vanna` is negative: the value `Vanna` returns is not the
derivative of `Vega` with respect to spot. -/
theorem C17_vanna_is_not_vega_deriv_spot :
    HasDerivAt (fun S' => ((EuropeanOption.ctor "Call" 1 1 1 0 1 1 (some (-(1 / 2)))).S S').Vega)
        (-(EuropeanOption.ctor "Call" 1 1 1 0 1 1 (some (-(1 / 2)))).Vanna) 1
      ∧ (EuropeanOption.ctor "Call" 1 1 1 0 1 1 (some (-(1 / 2)))).Vanna < 0
      ∧ ¬ HasDerivAt
        (fun S' => ((EuropeanOption.ctor "Call" 1 1 1 0 1 1 (some (-(1 / 2)))).S S').Vega)
        (EuropeanOption.ctor "Call" 1 1 1 0 1 1 (some (-(1 / 2)))).Vanna 1 := by
  have hD1 : ((EuropeanOption.ctor "Call" 1 1 1 0 1 1 (some (-(1 / 2)))).S 1).D1 = 0 := by
    simp only [EuropeanOption.ctor, EuropeanOption.S, EuropeanOption.D1]
    norm_num
  have hD1' : (EuropeanOption.ctor "Call" 1 1 1 0 1 1 (some (-(1 / 2)))).D1 = 0 := hD1
  have hV : (EuropeanOption.ctor "Call" 1 1 1 0 1 1 (some (-(1 / 2)))).Vanna
      = -(Real.exp (-(1 / 2)) * EuropeanOption.N_prime 0) := by
    simp only [EuropeanOption.Vanna]
    rw [hD1']
    simp only [EuropeanOption.ctor]
    norm_num
  have hneg : (EuropeanOption.ctor "Call" 1 1 1 0 1 1 (some (-(1 / 2)))).Vanna < 0 := by
    rw [hV]
    have := mul_pos (Real.exp_pos (-(1 / 2))) (N_prime_pos 0)
    linarith
  have hd := Vega_hasDerivAt_S (EuropeanOption.ctor "Call" 1 1 1 0 1 1 (some (-(1 / 2)))) 1
    (by norm_num) (by norm_num [EuropeanOption.ctor]) (by norm_num [EuropeanOption.ctor])
    (by norm_num [EuropeanOption.ctor])
  have hder : HasDerivAt
      (fun S' => ((EuropeanOption.ctor "Call" 1 1 1 0 1 1 (some (-(1 / 2)))).S S').Vega)
      (-(EuropeanOption.ctor "Call" 1 1 1 0 1 1 (some (-(1 / 2)))).Vanna) 1 := by
    convert hd using 1
    rw [hV, hD1]
    simp only [EuropeanOption.ctor]
    norm_num
  refine ⟨hder, hneg, fun hbad => ?_⟩
  have huniq := hbad.unique hder
  linarith

/-- C18 (the code at a failing input): for the model with `T = 1`, `K = 1`, `S = 1`, `r = 0`,
`sigma = 2`, `b = 0` (so `d1 = 1`, `d2 = -1`), `Vega` as a function of volatility is
differentiable at `sigma` with derivative `-Vega / 2 < 0`, while `Vomma` returns `0`: the
value `Vomma` returns is not the derivative of `Vega` with respect to volatility. -/
theorem C18_vomma_is_not_vega_deriv_sigma :
    HasDerivAt (fun s => ((EuropeanOption.ctor "Call" 1 1 1 0 2 1 (some 0)).sigma s).Vega)
        (-(EuropeanOption.ctor "Call" 1 1 1 0 2 1 (some 0)).Vega / 2) 2
      ∧ 0 < (EuropeanOption.ctor "Call" 1 1 1 0 2 1 (some 0)).Vega
      ∧ (EuropeanOption.ctor "Call" 1 1 1 0 2 1 (some 0)).Vomma = 0
      ∧ ¬ HasDerivAt (fun s => ((EuropeanOption.ctor "Call" 1 1 1 0 2 1 (some 0)).sigma s).Vega)
        (EuropeanOption.ctor "Call" 1 1 1 0 2 1 (some 0)).Vomma 2 := by
  have hD1 : (EuropeanOption.ctor "Call" 1 1 1 0 2 1 (some 0)).D1 = 1 := by
    simp only [EuropeanOption.ctor, EuropeanOption.D1]
    norm_num
  have hD2 : (EuropeanOption.ctor "Call" 1 1 1 0 2 1 (some 0)).D2 1 = -1 := by
    simp only [EuropeanOption.ctor, EuropeanOption.D2]
    norm_num
  have hVega : 0 < (EuropeanOption.ctor "Call" 1 1 1 0 2 1 (some 0)).Vega := by
    simp only [EuropeanOption.Vega]
    rw [hD1]
    simp only [EuropeanOption.ctor]
    have := N_prime_pos 1
    norm_num
    exact this
  have hVomma : (EuropeanOption.ctor "Call" 1 1 1 0 2 1 (some 0)).Vomma = 0 := by
    simp only [EuropeanOption.Vomma]
    rw [hD1]
    norm_num
  have hd := Vega_hasDerivAt_sigma (EuropeanOption.ctor "Call" 1 1 1 0 2 1 (some 0)) 2
    (by norm_num) (by norm_num [EuropeanOption.ctor])
  have hder : HasDerivAt
      (fun s => ((EuropeanOption.ctor "Call" 1 1 1 0 2 1 (some 0)).sigma s).Vega)
      (-(EuropeanOption.ctor "Call" 1 1 1 0 2 1 (some 0)).Vega / 2) 2 := by
    convert hd using 1
    have e1 : ((EuropeanOption.ctor "Call" 1 1 1 0 2 1 (some 0)).sigma 2).D1 = 1 := hD1
    have e2 : ((EuropeanOption.ctor "Call" 1 1 1 0 2 1 (some 0)).sigma 2).D2 1 = -1 := hD2
    have e3 : ((EuropeanOption.ctor "Call" 1 1 1 0 2 1 (some 0)).sigma 2).Vega
        = (EuropeanOption.ctor "Call" 1 1 1 0 2 1 (some 0)).Vega := rfl
    rw [e1, e2, e3]
    ring
  refine ⟨hder, hVega, hVomma, fun hbad => ?_⟩
  have huniq := hbad.unique hder
  rw [hVomma] at huniq
  linarith

/-! ## The simulation loops -/

/-- The spot the inner loop reaches does not depend on the incoming value of `SN`. -/
theorem subinterval_loop_fst (d f : ℝ) (pw : ℝ → ℝ) (z : ℕ → ℝ) (a : ℕ) (S : ℝ)
    (sn : Option ℝ) :
    (MonteCarlo.subinterval_loop d f pw z a (S, sn)).1
      = (MonteCarlo.subinterval_loop d f pw z a (S, none)).1 := by
  cases a with
  | zero => rfl
  | succ a =>
    induction a with
    | zero => rfl
    | succ a ih =>
      simp only [MonteCarlo.subinterval_loop] at ih ⊢
      rw [ih]

/-- After at least one iteration the inner loop has assigned `SN`, to the spot it reached. -/
theorem subinterval_loop_snd (d f : ℝ) (pw : ℝ → ℝ) (z : ℕ → ℝ) (a : ℕ) (S : ℝ)
    (sn : Option ℝ) :
    (MonteCarlo.subinterval_loop d f pw z (a + 1) (S, sn)).2
      = some (MonteCarlo.subinterval_loop d f pw z (a + 1) (S, none)).1 := by
  have h := subinterval_loop_fst d f pw z (a + 1) S sn
  simp only [MonteCarlo.subinterval_loop] at h ⊢
  rw [h]

/-- With at least one subinterval, the simulation loop returns the sum of the payoffs of the
paths and, under error analysis, the sum of their squares. -/
theorem simulation_loop_eq (type : String) (K S : ℝ) (N : Int) (hN : 1 ≤ N) (d f : ℝ)
    (pw : ℝ → ℝ) (dist : ℕ → ℕ → ℝ) (ea : Bool) (n : ℕ) :
    ∃ sn : Option ℝ, MonteCarlo.simulation_loop type K S N d f pw dist ea n
      = some (sn,
        ∑ i ∈ Finset.range n, MonteCarlo.payoff type K
          (MonteCarlo.subinterval_loop d f pw (dist (i + 1)) N.toNat (S, none)).1,
        if ea then ∑ i ∈ Finset.range n, MonteCarlo.payoff type K
            (MonteCarlo.subinterval_loop d f pw (dist (i + 1)) N.toNat (S, none)).1
          * MonteCarlo.payoff type K
            (MonteCarlo.subinterval_loop d f pw (dist (i + 1)) N.toNat (S, none)).1
        else 0) := by
  obtain ⟨a, ha⟩ : ∃ a : ℕ, N.toNat = a + 1 := by
    refine ⟨N.toNat - 1, ?_⟩
    have h1 : 1 ≤ N.toNat := by omega
    omega
  induction n with
  | zero =>
    refine ⟨none, ?_⟩
    simp [MonteCarlo.simulation_loop]
  | succ n ih =>
    obtain ⟨sn, hsn⟩ := ih
    refine ⟨some (MonteCarlo.subinterval_loop d f pw (dist (n + 1)) N.toNat (S, none)).1, ?_⟩
    have hsnd : (MonteCarlo.subinterval_loop d f pw (dist (n + 1)) N.toNat (S, sn)).2
        = some (MonteCarlo.subinterval_loop d f pw (dist (n + 1)) N.toNat (S, none)).1 := by
      rw [ha]
      exact subinterval_loop_snd d f pw (dist (n + 1)) a S sn
    rw [MonteCarlo.simulation_loop, hsn]
    simp only [Option.bind_eq_bind, Option.some_bind, hsnd, Option.pure_def]
    rw [Finset.sum_range_succ, Finset.sum_range_succ]
    cases ea <;> simp

/-- `Price_with` in terms of what the simulation loop returns. -/
theorem Price_with_of_loop (mc : MonteCarlo) (pw : ℝ → ℝ) (dist : ℕ → ℕ → ℝ) (ea : Bool)
    (st : Option ℝ × ℝ × ℝ)
    (h : MonteCarlo.simulation_loop mc.m_type mc.m_K mc.m_S mc.m_subintervals
      (mc.m_r * (mc.m_T / (mc.m_subintervals : ℝ)))
      (mc.m_sigma * Real.sqrt (mc.m_T / (mc.m_subintervals : ℝ))) pw dist ea
      mc.m_simulations.toNat = some st) :
    mc.Price_with pw dist ea
      = some (st.2.1 / (mc.m_simulations : ℝ) * Real.exp (-mc.m_r * mc.m_T),
        if ea then some
          { simulations := mc.m_simulations, subintervals := mc.m_subintervals,
            bsm_price := mc.toEuropeanOption.Price,
            mc_price := st.2.1 / (mc.m_simulations : ℝ) * Real.exp (-mc.m_r * mc.m_T),
            sd := mc.SD st.2.1 st.2.2, se := mc.SE (mc.SD st.2.1 st.2.2) }
        else none) := by
  unfold MonteCarlo.Price_with
  simp only [EuropeanOption.get_K, EuropeanOption.get_T, EuropeanOption.get_r,
    EuropeanOption.get_sigma, EuropeanOption.get_S, EuropeanOption.get_type]
  rw [h]
  cases ea <;> rfl

/-- The returned price in terms of what the simulation loop returns. -/
theorem Price_with_fst (mc : MonteCarlo) (pw : ℝ → ℝ) (dist : ℕ → ℕ → ℝ) (ea : Bool) :
    (mc.Price_with pw dist ea).map Prod.fst
      = (MonteCarlo.simulation_loop mc.m_type mc.m_K mc.m_S mc.m_subintervals
          (mc.m_r * (mc.m_T / (mc.m_subintervals : ℝ)))
          (mc.m_sigma * Real.sqrt (mc.m_T / (mc.m_subintervals : ℝ))) pw dist ea
          mc.m_simulations.toNat).map
        fun st => st.2.1 / (mc.m_simulations : ℝ) * Real.exp (-mc.m_r * mc.m_T) := by
  cases h : MonteCarlo.simulation_loop mc.m_type mc.m_K mc.m_S mc.m_subintervals
      (mc.m_r * (mc.m_T / (mc.m_subintervals : ℝ)))
      (mc.m_sigma * Real.sqrt (mc.m_T / (mc.m_subintervals : ℝ))) pw dist ea
      mc.m_simulations.toNat with
  | none =>
    unfold MonteCarlo.Price_with
    simp only [EuropeanOption.get_K, EuropeanOption.get_T, EuropeanOption.get_r,
      EuropeanOption.get_sigma, EuropeanOption.get_S, EuropeanOption.get_type]
    rw [h]
    rfl
  | some st =>
    rw [Price_with_of_loop mc pw dist ea st h]
    rfl

/-- For `beta = 1` the inner loop multiplies the spot by `1 + drift + diffusion Z` in each
subinterval. -/
theorem subinterval_loop_gbm (d f : ℝ) (z : ℕ → ℝ) (a : ℕ) (S : ℝ) :
    (MonteCarlo.subinterval_loop d f (MonteCarlo.pow_function 1) z a (S, none)).1
      = S * ∏ k ∈ Finset.range a, (1 + d + f * z (k + 1)) := by
  induction a with
  | zero => simp [MonteCarlo.subinterval_loop]
  | succ a ih =>
    simp only [MonteCarlo.subinterval_loop]
    rw [ih, Finset.prod_range_succ]
    have hp : ∀ x : ℝ, MonteCarlo.pow_function 1 x = x := by
      intro x
      unfold MonteCarlo.pow_function
      rw [if_pos (by norm_num)]
    rw [hp]
    ring

/-! ## The diffusion multiplier -/

/-- For `beta` in `{0.5, 1, 2}` the special-cased multiplier is `x ^ beta`, at every real
`x` (for negative `x` and `beta = 0.5` both sides are `0` in the real model, where the source
has NaN on both sides). -/
theorem pow_function_eq_rpow (beta : ℝ) (hb : beta = 0.5 ∨ beta = 1 ∨ beta = 2) (x : ℝ) :
    MonteCarlo.pow_function beta x = x ^ beta := by
  unfold MonteCarlo.pow_function
  rcases hb with hb | hb | hb
  · subst hb
    rw [if_neg (by norm_num), if_pos rfl, Real.sqrt_eq_rpow]
    congr 1
    norm_num
  · subst hb
    rw [if_pos (by norm_num), Real.rpow_one]
  · subst hb
    rw [if_neg (by norm_num), if_neg (by norm_num), if_pos (by norm_num), Real.rpow_two]
    ring

/-- C13: special-case equivalence of the diffusion multiplier.  For `beta` in `{0.5, 1, 2}`
and every real `x ≥ 0` the specialised multiplier (`sqrt x`, `x`, `x * x`) equals `x ^ beta`,
and for every engine, every draws and either value of the error-analysis flag `Price` (with
the special cases) returns what the computation with `x ^ beta` at every step returns. -/
theorem C13_special_case_equivalence (beta : ℝ) (hb : beta = 0.5 ∨ beta = 1 ∨ beta = 2) :
    (∀ x : ℝ, 0 ≤ x → MonteCarlo.pow_function beta x = x ^ beta)
      ∧ ∀ (mc : MonteCarlo) (dist : ℕ → ℕ → ℝ) (error_analysis : Bool),
        mc.Price dist beta error_analysis = mc.Price_general_pow dist beta error_analysis := by
  refine ⟨fun x _ => pow_function_eq_rpow beta hb x, fun mc dist ea => ?_⟩
  have hfun : MonteCarlo.pow_function beta = fun x => x ^ beta :=
    funext fun x => pow_function_eq_rpow beta hb x
  unfold MonteCarlo.Price MonteCarlo.Price_general_pow
  rw [hfun]

/-- Witness for C13: `beta = 0.5`. -/
theorem C13_special_case_equivalence_witness :
    ((0.5 : ℝ) = 0.5 ∨ (0.5 : ℝ) = 1 ∨ (0.5 : ℝ) = 2)
      ∧ (∀ x : ℝ, 0 ≤ x → MonteCarlo.pow_function 0.5 x = x ^ (0.5 : ℝ))
      ∧ ∀ (mc : MonteCarlo) (dist : ℕ → ℕ → ℝ) (error_analysis : Bool),
        mc.Price dist 0.5 error_analysis = mc.Price_general_pow dist 0.5 error_analysis :=
  ⟨Or.inl rfl, C13_special_case_equivalence 0.5 (Or.inl rfl)⟩

/-! ## The simulated price -/

/-- With at least one subinterval `Price_with` returns a price: the discounted mean of the
payoffs of the simulated paths. -/
theorem Price_with_fst_eq (mc : MonteCarlo) (pw : ℝ → ℝ) (dist : ℕ → ℕ → ℝ) (ea : Bool)
    (hN : 1 ≤ mc.m_subintervals) :
    (mc.Price_with pw dist ea).map Prod.fst
      = some ((∑ i ∈ Finset.range mc.m_simulations.toNat, MonteCarlo.payoff mc.m_type mc.m_K
          (MonteCarlo.subinterval_loop (mc.m_r * (mc.m_T / (mc.m_subintervals : ℝ)))
            (mc.m_sigma * Real.sqrt (mc.m_T / (mc.m_subintervals : ℝ))) pw (dist (i + 1))
            mc.m_subintervals.toNat (mc.m_S, none)).1)
        / (mc.m_simulations : ℝ) * Real.exp (-mc.m_r * mc.m_T)) := by
  obtain ⟨sn, hsn⟩ := simulation_loop_eq mc.m_type mc.m_K mc.m_S mc.m_subintervals hN
    (mc.m_r * (mc.m_T / (mc.m_subintervals : ℝ)))
    (mc.m_sigma * Real.sqrt (mc.m_T / (mc.m_subintervals : ℝ))) pw dist ea
    mc.m_simulations.toNat
  rw [Price_with_fst, hsn]
  rfl

/-- C15: the simulation ignores the cost of carry.  For every `beta`, every draws and every
two engines that agree on type, `T`, `K`, `S`, `r`, `sigma`, subintervals and simulations
(whatever their costs of carry), `Price` returns the same simulated price; with at least
one subinterval it does return one. -/
theorem C15_price_ignores_cost_of_carry (mc1 mc2 : MonteCarlo) (dist : ℕ → ℕ → ℝ) (beta : ℝ)
    (error_analysis : Bool)
    (htype : mc1.m_type = mc2.m_type) (hT : mc1.m_T = mc2.m_T) (hK : mc1.m_K = mc2.m_K)
    (hS : mc1.m_S = mc2.m_S) (hr : mc1.m_r = mc2.m_r) (hsigma : mc1.m_sigma = mc2.m_sigma)
    (hsub : mc1.m_subintervals = mc2.m_subintervals)
    (hsim : mc1.m_simulations = mc2.m_simulations) :
    (mc1.Price dist beta error_analysis).map Prod.fst
        = (mc2.Price dist beta error_analysis).map Prod.fst
      ∧ (1 ≤ mc1.m_subintervals → ∃ p : ℝ,
          (mc1.Price dist beta error_analysis).map Prod.fst = some p
          ∧ (mc2.Price dist beta error_analysis).map Prod.fst = some p) := by
  have heq : (mc1.Price dist beta error_analysis).map Prod.fst
      = (mc2.Price dist beta error_analysis).map Prod.fst := by
    unfold MonteCarlo.Price
    rw [Price_with_fst, Price_with_fst, htype, hT, hK, hS, hr, hsigma, hsub, hsim]
  refine ⟨heq, fun hN => ?_⟩
  have h1 := Price_with_fst_eq mc1 (MonteCarlo.pow_function beta) dist error_analysis hN
  exact ⟨_, h1, by rw [← heq]; exact h1⟩

/-- Witness for C15: the Call of `main` with 100 subintervals and 10 simulations, against
the same engine with cost of carry `0`, all draws `0`, with error analysis. -/
theorem C15_price_ignores_cost_of_carry_witness :
    ((MonteCarlo.ctor (EuropeanOption.ctor "Call" 0.25 65 60 0.08 0.3 1 none) 100 10).Price
        (fun _ _ => 0) 1 true).map Prod.fst
      = ((MonteCarlo.ctor (EuropeanOption.ctor "Call" 0.25 65 60 0.08 0.3 1 (some 0)) 100
        10).Price (fun _ _ => 0) 1 true).map Prod.fst
    ∧ ((1 : Int) ≤ 100 → ∃ p : ℝ,
        ((MonteCarlo.ctor (EuropeanOption.ctor "Call" 0.25 65 60 0.08 0.3 1 none) 100 10).Price
          (fun _ _ => 0) 1 true).map Prod.fst = some p
        ∧ ((MonteCarlo.ctor (EuropeanOption.ctor "Call" 0.25 65 60 0.08 0.3 1 (some 0)) 100
          10).Price (fun _ _ => 0) 1 true).map Prod.fst = some p) :=
  C15_price_ignores_cost_of_carry
    (MonteCarlo.ctor (EuropeanOption.ctor "Call" 0.25 65 60 0.08 0.3 1 none) 100 10)
    (MonteCarlo.ctor (EuropeanOption.ctor "Call" 0.25 65 60 0.08 0.3 1 (some 0)) 100 10)
    (fun _ _ => 0) 1 true rfl rfl rfl rfl rfl rfl rfl rfl

/-- C20: the closed form of the simulated price for geometric Brownian motion.  For
`beta = 1`, at least one subinterval and at least one simulation, and any draws, with
`dt = T / subintervals` the inner loop takes the spot `S` to
`S ∏ (1 + r dt + sigma sqrt(dt) Z_k)` (and leaves it in `SN`), and `Price` returns
`e^(-rT) (1/n) ∑ payoff` of these terminal values, the payoff being `max (x - K) 0` for a Call
and `max (K - x) 0` otherwise. -/
theorem C20_gbm_closed_form (mc : MonteCarlo) (dist : ℕ → ℕ → ℝ) (error_analysis : Bool)
    (hN : 1 ≤ mc.m_subintervals) (hn : 1 ≤ mc.m_simulations) :
    (∀ (i : ℕ) (sn : Option ℝ),
        MonteCarlo.subinterval_loop (mc.m_r * (mc.m_T / (mc.m_subintervals : ℝ)))
          (mc.m_sigma * Real.sqrt (mc.m_T / (mc.m_subintervals : ℝ)))
          (MonteCarlo.pow_function 1) (dist i) mc.m_subintervals.toNat (mc.m_S, sn)
        = (mc.m_S * ∏ k ∈ Finset.range mc.m_subintervals.toNat,
              (1 + mc.m_r * (mc.m_T / (mc.m_subintervals : ℝ))
                + mc.m_sigma * Real.sqrt (mc.m_T / (mc.m_subintervals : ℝ)) * dist i (k + 1)),
            some (mc.m_S * ∏ k ∈ Finset.range mc.m_subintervals.toNat,
              (1 + mc.m_r * (mc.m_T / (mc.m_subintervals : ℝ))
                + mc.m_sigma * Real.sqrt (mc.m_T / (mc.m_subintervals : ℝ)) * dist i (k + 1)))))
      ∧ ∃ res : ℝ × Option MonteCarlo.Report, mc.Price dist 1 error_analysis = some res
        ∧ res.1 = Real.exp (-mc.m_r * mc.m_T) * (1 / (mc.m_simulations : ℝ)
          * ∑ i ∈ Finset.range mc.m_simulations.toNat,
            if mc.m_type = "Call" then
              max (mc.m_S * ∏ k ∈ Finset.range mc.m_subintervals.toNat,
                (1 + mc.m_r * (mc.m_T / (mc.m_subintervals : ℝ))
                  + mc.m_sigma * Real.sqrt (mc.m_T / (mc.m_subintervals : ℝ))
                    * dist (i + 1) (k + 1)) - mc.m_K) 0
            else
              max (mc.m_K - mc.m_S * ∏ k ∈ Finset.range mc.m_subintervals.toNat,
                (1 + mc.m_r * (mc.m_T / (mc.m_subintervals : ℝ))
                  + mc.m_sigma * Real.sqrt (mc.m_T / (mc.m_subintervals : ℝ))
                    * dist (i + 1) (k + 1))) 0) := by
  have _h := hn
  obtain ⟨a, ha⟩ : ∃ a : ℕ, mc.m_subintervals.toNat = a + 1 := by
    refine ⟨mc.m_subintervals.toNat - 1, ?_⟩
    have h1 : 1 ≤ mc.m_subintervals.toNat := by omega
    omega
  constructor
  · intro i sn
    have h1 := subinterval_loop_fst (mc.m_r * (mc.m_T / (mc.m_subintervals : ℝ)))
      (mc.m_sigma * Real.sqrt (mc.m_T / (mc.m_subintervals : ℝ))) (MonteCarlo.pow_function 1)
      (dist i) mc.m_subintervals.toNat mc.m_S sn
    have h2 := subinterval_loop_snd (mc.m_r * (mc.m_T / (mc.m_subintervals : ℝ)))
      (mc.m_sigma * Real.sqrt (mc.m_T / (mc.m_subintervals : ℝ))) (MonteCarlo.pow_function 1)
      (dist i) a mc.m_S sn
    rw [← ha, subinterval_loop_gbm] at h2
    rw [subinterval_loop_gbm] at h1
    exact Prod.ext h1 h2
  · have h := Price_with_fst_eq mc (MonteCarlo.pow_function 1) dist error_analysis hN
    rw [Option.map_eq_some'] at h
    obtain ⟨res, hres, hfst⟩ := h
    refine ⟨res, hres, ?_⟩
    rw [hfst]
    simp only [subinterval_loop_gbm, MonteCarlo.payoff]
    ring

/-- Witness for C20: the Put of `main` with 100 subintervals and 10 simulations, all draws
`0`, with error analysis. -/
theorem C20_gbm_closed_form_witness :
    ∃ res : ℝ × Option MonteCarlo.Report,
      (MonteCarlo.ctor (EuropeanOption.ctor "Put" 1 100 100 0 0.2 2 none) 100 10).Price
        (fun _ _ => 0) 1 true = some res
      ∧ res.1 = Real.exp (-0 * 1) * (1 / ((10 : Int) : ℝ)
        * ∑ i ∈ Finset.range (10 : Int).toNat,
          if "Put" = "Call" then
            max (100 * ∏ k ∈ Finset.range (100 : Int).toNat,
              (1 + 0 * (1 / ((100 : Int) : ℝ))
                + 0.2 * Real.sqrt (1 / ((100 : Int) : ℝ))
                  * (fun _ _ => (0 : ℝ)) (i + 1) (k + 1)) - 100) 0
          else
            max (100 - 100 * ∏ k ∈ Finset.range (100 : Int).toNat,
              (1 + 0 * (1 / ((100 : Int) : ℝ))
                + 0.2 * Real.sqrt (1 / ((100 : Int) : ℝ))
                  * (fun _ _ => (0 : ℝ)) (i + 1) (k + 1))) 0) :=
  (C20_gbm_closed_form
    (MonteCarlo.ctor (EuropeanOption.ctor "Put" 1 100 100 0 0.2 2 none) 100 10)
    (fun _ _ => 0) true (by decide) (by decide)).2

/-! ## The reported standard deviation and standard error -/

/-- The sum of squared deviations from the mean, for `n > 0` values. -/
theorem sum_sq_dev_eq (p : ℕ → ℝ) (n : ℕ) (hn : 0 < n) :
    ∑ i ∈ Finset.range n, (p i - (∑ j ∈ Finset.range n, p j) / (n : ℝ)) ^ 2
      = ∑ i ∈ Finset.range n, p i * p i
        - (∑ i ∈ Finset.range n, p i) * (∑ i ∈ Finset.range n, p i) / (n : ℝ) := by
  have hn0 : (n : ℝ) ≠ 0 := Nat.cast_ne_zero.mpr hn.ne'
  have hexp : ∀ i, (p i - (∑ j ∈ Finset.range n, p j) / (n : ℝ)) ^ 2
      = p i * p i - 2 * ((∑ j ∈ Finset.range n, p j) / (n : ℝ)) * p i
        + ((∑ j ∈ Finset.range n, p j) / (n : ℝ)) ^ 2 := by
    intro i
    ring
  simp only [hexp]
  rw [Finset.sum_add_distrib, Finset.sum_sub_distrib, ← Finset.mul_sum, Finset.sum_const,
    Finset.card_range, nsmul_eq_mul]
  field_simp
  ring

/-- C14: the reported standard deviation is `e^(rT)` times the classical sample standard
deviation of the payoffs.  With at least one subinterval, `n ≥ 2` simulations and error
analysis on, `Price` returns a price and prints a row; with `p i` the payoff of path `i + 1`,
the printed `sd` is `sqrt ((∑ p² - (∑ p)² / n) / (n - 1)) e^(rT)`, the quantity under the
square root equals `∑ (p - mean)² / (n - 1)` and is non-negative, and the printed `se` is
`sd / sqrt n`. -/
theorem C14_sd_is_scaled_sample_sd (mc : MonteCarlo) (dist : ℕ → ℕ → ℝ) (beta : ℝ)
    (hN : 1 ≤ mc.m_subintervals) (hn : 2 ≤ mc.m_simulations) :
    ∃ (price : ℝ) (rep : MonteCarlo.Report) (p : ℕ → ℝ),
      mc.Price dist beta true = some (price, some rep)
      ∧ (∀ i, p i = MonteCarlo.payoff mc.m_type mc.m_K
          (MonteCarlo.subinterval_loop (mc.m_r * (mc.m_T / (mc.m_subintervals : ℝ)))
            (mc.m_sigma * Real.sqrt (mc.m_T / (mc.m_subintervals : ℝ)))
            (MonteCarlo.pow_function beta) (dist (i + 1)) mc.m_subintervals.toNat
            (mc.m_S, none)).1)
      ∧ rep.sd = Real.sqrt ((∑ i ∈ Finset.range mc.m_simulations.toNat, p i * p i
            - (∑ i ∈ Finset.range mc.m_simulations.toNat, p i)
              * (∑ i ∈ Finset.range mc.m_simulations.toNat, p i) / (mc.m_simulations : ℝ))
          / ((mc.m_simulations : ℝ) - 1)) * Real.exp (mc.m_r * mc.m_T)
      ∧ (∑ i ∈ Finset.range mc.m_simulations.toNat, p i * p i
            - (∑ i ∈ Finset.range mc.m_simulations.toNat, p i)
              * (∑ i ∈ Finset.range mc.m_simulations.toNat, p i) / (mc.m_simulations : ℝ))
          / ((mc.m_simulations : ℝ) - 1)
        = (∑ i ∈ Finset.range mc.m_simulations.toNat,
            (p i - (∑ j ∈ Finset.range mc.m_simulations.toNat, p j) / (mc.m_simulations : ℝ)) ^ 2)
          / ((mc.m_simulations : ℝ) - 1)
      ∧ 0 ≤ (∑ i ∈ Finset.range mc.m_simulations.toNat, p i * p i
            - (∑ i ∈ Finset.range mc.m_simulations.toNat, p i)
              * (∑ i ∈ Finset.range mc.m_simulations.toNat, p i) / (mc.m_simulations : ℝ))
          / ((mc.m_simulations : ℝ) - 1)
      ∧ rep.se = rep.sd / Real.sqrt (mc.m_simulations : ℝ) := by
  obtain ⟨sn, hsn⟩ := simulation_loop_eq mc.m_type mc.m_K mc.m_S mc.m_subintervals hN
    (mc.m_r * (mc.m_T / (mc.m_subintervals : ℝ)))
    (mc.m_sigma * Real.sqrt (mc.m_T / (mc.m_subintervals : ℝ))) (MonteCarlo.pow_function beta)
    dist true mc.m_simulations.toNat
  have hprice := Price_with_of_loop mc (MonteCarlo.pow_function beta) dist true _ hsn
  have hcast : ((mc.m_simulations.toNat : ℕ) : ℝ) = (mc.m_simulations : ℝ) := by
    have h0 : (0 : Int) ≤ mc.m_simulations := by omega
    have h1 : ((mc.m_simulations.toNat : ℕ) : Int) = mc.m_simulations := Int.toNat_of_nonneg h0
    exact_mod_cast congrArg (Int.cast : Int → ℝ) h1
  have hpos : 0 < mc.m_simulations.toNat := by omega
  have hn1 : (0 : ℝ) < (mc.m_simulations : ℝ) - 1 := by
    have h2 : (2 : ℝ) ≤ (mc.m_simulations : ℝ) := by exact_mod_cast hn
    linarith
  have hdev := sum_sq_dev_eq (fun i => MonteCarlo.payoff mc.m_type mc.m_K
    (MonteCarlo.subinterval_loop (mc.m_r * (mc.m_T / (mc.m_subintervals : ℝ)))
      (mc.m_sigma * Real.sqrt (mc.m_T / (mc.m_subintervals : ℝ)))
      (MonteCarlo.pow_function beta) (dist (i + 1)) mc.m_subintervals.toNat
      (mc.m_S, none)).1) mc.m_simulations.toNat hpos
  rw [hcast] at hdev
  refine ⟨_, _, _, hprice, fun i => rfl, ?_, ?_, ?_, rfl⟩
  · simp only [MonteCarlo.SD, EuropeanOption.get_r, EuropeanOption.get_T, if_true,
      Int.cast_sub, Int.cast_one]
  · rw [hdev]
  · rw [← hdev]
    exact div_nonneg (Finset.sum_nonneg fun i _ => sq_nonneg _) hn1.le

/-- Witness for C14: the Call of `main` with 100 subintervals and 10 simulations, all draws
`0`, `beta = 1`: a price is returned and a row is printed. -/
theorem C14_sd_is_scaled_sample_sd_witness :
    ∃ (price : ℝ) (rep : MonteCarlo.Report),
      (MonteCarlo.ctor (EuropeanOption.ctor "Call" 0.25 65 60 0.08 0.3 1 none) 100 10).Price
        (fun _ _ => 0) 1 true = some (price, some rep)
      ∧ rep.se = rep.sd / Real.sqrt ((10 : Int) : ℝ) := by
  obtain ⟨price, rep, _, h, _, _, _, _, hse⟩ := C14_sd_is_scaled_sample_sd
    (MonteCarlo.ctor (EuropeanOption.ctor "Call" 0.25 65 60 0.08 0.3 1 none) 100 10)
    (fun _ _ => 0) 1 (by decide) (by decide)
  exact ⟨price, rep, h, hse⟩

/-! ## The generators of the workers -/

/-- C19 (the code for any two workers): in one call of `Price` the thread-local generators
of any two workers start in the same state, the copy of the default-constructed
`wiener_process`, and so draw the same sequence of values, whatever the generator's state
type, its default state and the distribution's draw function. -/
theorem C19_workers_start_in_the_same_state {G : Type} (draw : G → ℝ × G)
    (default_state : G) (thread1 thread2 n : ℕ) :
    MonteCarlo.local_wiener_process default_state thread1
        = MonteCarlo.local_wiener_process default_state thread2
      ∧ MonteCarlo.worker_draws draw default_state thread1 n
        = MonteCarlo.worker_draws draw default_state thread2 n := by
  refine ⟨rfl, ?_⟩
  induction n with
  | zero => rfl
  | succ n ih =>
    simp only [MonteCarlo.worker_draws]
    rw [ih]

/-! ## Call against Put in the simulation -/

/-- The Call payoff minus the Put payoff of one terminal value is `x - K`. -/
theorem payoff_call_sub_put (K x : ℝ) :
    MonteCarlo.payoff "Call" K x - MonteCarlo.payoff "Put" K x = x - K := by
  have hne : ("Put" : String) ≠ "Call" := by decide
  simp only [MonteCarlo.payoff, if_true, if_neg hne]
  rcases le_total x K with h | h
  · rw [max_eq_right (by linarith), max_eq_left (by linarith)]
    ring
  · rw [max_eq_left (by linarith), max_eq_right (by linarith)]
    ring

/-- C21: path-wise put-call parity of the simulation.  For every `beta`, at least one
subinterval, `n ≥ 1` simulations and every draws, the Call engine and the Put engine with
the same parameters both return a price, and the Call price minus the Put price is
`e^(-rT) ((1/n) ∑ S_final,i - K)`, with `S_final,i` the spot the inner loop reaches on
path `i`. -/
theorem C21_simulation_put_call_parity (o : EuropeanOption) (N n : Int) (dist : ℕ → ℕ → ℝ)
    (beta : ℝ) (error_analysis : Bool) (hN : 1 ≤ N) (hn : 1 ≤ n) :
    ∃ c p : ℝ,
      ((MonteCarlo.ctor (o.type "Call") N n).Price dist beta error_analysis).map Prod.fst
        = some c
      ∧ ((MonteCarlo.ctor (o.type "Put") N n).Price dist beta error_analysis).map Prod.fst
        = some p
      ∧ c - p = Real.exp (-o.m_r * o.m_T) * (1 / (n : ℝ)
          * (∑ i ∈ Finset.range n.toNat,
            (MonteCarlo.subinterval_loop (o.m_r * (o.m_T / (N : ℝ)))
              (o.m_sigma * Real.sqrt (o.m_T / (N : ℝ))) (MonteCarlo.pow_function beta)
              (dist (i + 1)) N.toNat (o.m_S, none)).1)
          - o.m_K) := by
  have hc := Price_with_fst_eq (MonteCarlo.ctor (o.type "Call") N n)
    (MonteCarlo.pow_function beta) dist error_analysis hN
  have hp := Price_with_fst_eq (MonteCarlo.ctor (o.type "Put") N n)
    (MonteCarlo.pow_function beta) dist error_analysis hN
  refine ⟨_, _, hc, hp, ?_⟩
  have hcast : ((n.toNat : ℕ) : ℝ) = (n : ℝ) := by
    have h0 : (0 : Int) ≤ n := by omega
    have h1 : ((n.toNat : ℕ) : Int) = n := Int.toNat_of_nonneg h0
    exact_mod_cast congrArg (Int.cast : Int → ℝ) h1
  have hn0 : (n : ℝ) ≠ 0 := by
    have h1 : (1 : ℝ) ≤ (n : ℝ) := by exact_mod_cast hn
    linarith
  show (∑ i ∈ Finset.range n.toNat, MonteCarlo.payoff "Call" o.m_K
          (MonteCarlo.subinterval_loop (o.m_r * (o.m_T / (N : ℝ)))
            (o.m_sigma * Real.sqrt (o.m_T / (N : ℝ))) (MonteCarlo.pow_function beta)
            (dist (i + 1)) N.toNat (o.m_S, none)).1) / (n : ℝ) * Real.exp (-o.m_r * o.m_T)
      - (∑ i ∈ Finset.range n.toNat, MonteCarlo.payoff "Put" o.m_K
          (MonteCarlo.subinterval_loop (o.m_r * (o.m_T / (N : ℝ)))
            (o.m_sigma * Real.sqrt (o.m_T / (N : ℝ))) (MonteCarlo.pow_function beta)
            (dist (i + 1)) N.toNat (o.m_S, none)).1) / (n : ℝ) * Real.exp (-o.m_r * o.m_T)
      = _
  rw [← sub_mul, ← sub_div, ← Finset.sum_sub_distrib]
  simp only [payoff_call_sub_put]
  rw [Finset.sum_sub_distrib, Finset.sum_const, Finset.card_range, nsmul_eq_mul, hcast]
  field_simp
  ring

/-- Witness for C21: the parameters of the Call of `main` with 100 subintervals and 10
simulations, all draws `0`, `beta = 1`, with error analysis. -/
theorem C21_simulation_put_call_parity_witness :
    ∃ c p : ℝ,
      ((MonteCarlo.ctor ((EuropeanOption.ctor "Call" 0.25 65 60 0.08 0.3 1 none).type "Call")
        100 10).Price (fun _ _ => 0) 1 true).map Prod.fst = some c
      ∧ ((MonteCarlo.ctor ((EuropeanOption.ctor "Call" 0.25 65 60 0.08 0.3 1 none).type "Put")
        100 10).Price (fun _ _ => 0) 1 true).map Prod.fst = some p
      ∧ c - p = Real.exp (-0.08 * 0.25) * (1 / ((10 : Int) : ℝ)
          * (∑ i ∈ Finset.range (10 : Int).toNat,
            (MonteCarlo.subinterval_loop (0.08 * (0.25 / ((100 : Int) : ℝ)))
              (0.3 * Real.sqrt (0.25 / ((100 : Int) : ℝ))) (MonteCarlo.pow_function 1)
              ((fun _ _ => (0 : ℝ)) (i + 1)) (100 : Int).toNat (60, none)).1)
          - 65) :=
  C21_simulation_put_call_parity (EuropeanOption.ctor "Call" 0.25 65 60 0.08 0.3 1 none) 100 10
    (fun _ _ => 0) 1 true (by decide) (by decide)

/-- Every type other than exactly `"Call"` gets the Put payoff. -/
theorem payoff_of_ne_call (t : String) (ht : t ≠ "Call") (K SN : ℝ) :
    MonteCarlo.payoff t K SN = max (K - SN) 0 := by
  simp only [MonteCarlo.payoff, if_neg ht]

/-- The simulation loop for a type other than `"Call"` is the loop for `"Put"`. -/
theorem simulation_loop_of_ne_call (t : String) (ht : t ≠ "Call") (K S : ℝ) (N : Int)
    (d f : ℝ) (pw : ℝ → ℝ) (dist : ℕ → ℕ → ℝ) (ea : Bool) (i : ℕ) :
    MonteCarlo.simulation_loop t K S N d f pw dist ea i
      = MonteCarlo.simulation_loop "Put" K S N d f pw dist ea i := by
  have hne : ("Put" : String) ≠ "Call" := by decide
  induction i with
  | zero => rfl
  | succ i ih =>
    rw [MonteCarlo.simulation_loop, MonteCarlo.simulation_loop, ih]
    simp only [payoff_of_ne_call t ht, payoff_of_ne_call "Put" hne]

/-- C22: the simulation treats every type other than exactly `"Call"` as a Put.  For every
type string `t` different from `"Call"`, every `beta` and every draws, the payoff of a path
is `max (K - S_final) 0`, and `Price` returns what it returns for type `"Put"` with the same
parameters; with at least one subinterval it does return a price, so an unrecognised type
is neither rejected nor distinguished. -/
theorem C22_non_call_type_is_put (t : String) (ht : t ≠ "Call") (o : EuropeanOption)
    (N n : Int) (dist : ℕ → ℕ → ℝ) (beta : ℝ) (error_analysis : Bool) :
    (∀ K SN : ℝ, MonteCarlo.payoff t K SN = max (K - SN) 0)
      ∧ ((MonteCarlo.ctor (o.type t) N n).Price dist beta error_analysis).map Prod.fst
        = ((MonteCarlo.ctor (o.type "Put") N n).Price dist beta error_analysis).map Prod.fst
      ∧ (1 ≤ N → ∃ p : ℝ,
          ((MonteCarlo.ctor (o.type t) N n).Price dist beta error_analysis).map Prod.fst
            = some p
          ∧ ((MonteCarlo.ctor (o.type "Put") N n).Price dist beta error_analysis).map Prod.fst
            = some p) := by
  have heq : ((MonteCarlo.ctor (o.type t) N n).Price dist beta error_analysis).map Prod.fst
      = ((MonteCarlo.ctor (o.type "Put") N n).Price dist beta error_analysis).map Prod.fst := by
    unfold MonteCarlo.Price
    rw [Price_with_fst, Price_with_fst]
    exact congrArg _ (simulation_loop_of_ne_call t ht o.m_K o.m_S N
      (o.m_r * (o.m_T / (N : ℝ))) (o.m_sigma * Real.sqrt (o.m_T / (N : ℝ)))
      (MonteCarlo.pow_function beta) dist error_analysis n.toNat)
  refine ⟨payoff_of_ne_call t ht, heq, fun hN => ?_⟩
  have h1 := Price_with_fst_eq (MonteCarlo.ctor (o.type t) N n) (MonteCarlo.pow_function beta)
    dist error_analysis hN
  exact ⟨_, h1, by rw [← heq]; exact h1⟩

/-- Witness for C22: the type `"call"` (lower case) on the parameters of the Put of `main`,
100 subintervals, 10 simulations, all draws `0`, `beta = 1`, with error analysis. -/
theorem C22_non_call_type_is_put_witness :
    ("call" : String) ≠ "Call"
      ∧ (∀ K SN : ℝ, MonteCarlo.payoff "call" K SN = max (K - SN) 0)
      ∧ ((MonteCarlo.ctor ((EuropeanOption.ctor "Put" 1 100 100 0 0.2 2 none).type "call")
          100 10).Price (fun _ _ => 0) 1 true).map Prod.fst
        = ((MonteCarlo.ctor ((EuropeanOption.ctor "Put" 1 100 100 0 0.2 2 none).type "Put")
          100 10).Price (fun _ _ => 0) 1 true).map Prod.fst
      ∧ ((1 : Int) ≤ 100 → ∃ p : ℝ,
          ((MonteCarlo.ctor ((EuropeanOption.ctor "Put" 1 100 100 0 0.2 2 none).type "call")
            100 10).Price (fun _ _ => 0) 1 true).map Prod.fst = some p
          ∧ ((MonteCarlo.ctor ((EuropeanOption.ctor "Put" 1 100 100 0 0.2 2 none).type "Put")
            100 10).Price (fun _ _ => 0) 1 true).map Prod.fst = some p) :=
  ⟨by decide, C22_non_call_type_is_put "call" (by decide)
    (EuropeanOption.ctor "Put" 1 100 100 0 0.2 2 none) 100 10 (fun _ _ => 0) 1 true⟩

/-- What the printed row shows for a type that is neither `"Call"` nor `"Put"`: with error
analysis on, the simulated price is returned and printed, while the `BSM Price` column is
the value of the analytical `Price`, which falls through for such a type. -/
theorem Price_report_of_unrecognised_type (t : String) (ht : t ≠ "Call") (ht' : t ≠ "Put")
    (o : EuropeanOption) (N n : Int) (dist : ℕ → ℕ → ℝ) (beta : ℝ) (hN : 1 ≤ N) :
    ∃ (price : ℝ) (rep : MonteCarlo.Report),
      (MonteCarlo.ctor (o.type t) N n).Price dist beta true = some (price, some rep)
      ∧ rep.mc_price = price ∧ rep.bsm_price = none := by
  obtain ⟨sn, hsn⟩ := simulation_loop_eq t o.m_K o.m_S N hN (o.m_r * (o.m_T / (N : ℝ)))
    (o.m_sigma * Real.sqrt (o.m_T / (N : ℝ))) (MonteCarlo.pow_function beta) dist true n.toNat
  have hprice := Price_with_of_loop (MonteCarlo.ctor (o.type t) N n)
    (MonteCarlo.pow_function beta) dist true _ hsn
  refine ⟨_, _, hprice, rfl, ?_⟩
  show (o.type t).Price = none
  simp only [EuropeanOption.Price, EuropeanOption.type, if_neg ht, if_neg ht']
